import Mathlib

/-!
Verification of the mergesort Go package (file part_000): a stable,
multi-index external merge sort of a text file.

Shallow embedding conventions:
* A Go string is a byte sequence; we model it as a list of characters
  where each character stands for one byte (all inputs of interest are
  byte strings, and Go indexing, length, comparison and file offsets are
  bytewise).  The type is called Str.
* Go int and int64 are modelled as Int and byte offsets as Nat; the
  engine never produces offsets that overflow int64 for physically
  realizable files, so overflow wrapping is not modelled.
* A call to halt (log.Fatalln) or a runtime panic (index out of range)
  terminates the process; fallible stages therefore return Option, with
  none standing for process termination.
* Recursions that Go performs with loops over shrinking data are
  written with an explicit fuel argument so that every definition is
  structurally recursive and evaluates by kernel reduction.
-/

namespace MergesortGo

/-- A Go string: a sequence of bytes, one Char per byte. -/
abbrev Str := List Char

/-- The ASCII group separator, fmt.Sprintf of character 29 (var asciiGS). -/
def gsChar : Char := Char.ofNat 29

/-- Go bytewise string comparison s < t (used by sort.StringSlice.Less and
by the key comparisons inside merge). -/
def strLt : Str → Str → Bool
  | [], [] => false
  | [], _ :: _ => true
  | _ :: _, [] => false
  | a :: as, b :: bs => if a < b then true else if b < a then false else strLt as bs

/-- Decimal digits of a positive number, most significant first, as
produced by strconv.FormatInt(n, 10); fueled recursion on n / 10. -/
def natDigitsF : Nat → Nat → List Char
  | 0, _ => []
  | fuel + 1, n => if n = 0 then [] else natDigitsF fuel (n / 10) ++ [Char.ofNat (48 + n % 10)]

/-- Decimal representation of a natural number, as strconv.FormatInt /
fmt %v produce for a nonnegative int64. -/
def natRepr (n : Nat) : Str := if n = 0 then ['0'] else natDigitsF n n

/-- Numeric value of a digit string (proof-side inverse of natRepr). -/
def valFn (s : Str) : Nat := s.foldl (fun a c => 10 * a + (c.toNat - 48)) 0

/-- fmt right justification %Ns / %Nv: pad on the left with spaces up to
width w, never truncating. -/
def padLeft (w : Nat) (s : Str) : Str := List.replicate (w - s.length) ' ' ++ s

/-- Membership in the cutset of strings.Trim(record, chars) with chars
equal to space, carriage return, newline. -/
def isTrimChar (c : Char) : Bool := c = ' ' || c = '\r' || c = '\n'

/-- strings.TrimRight for the cutset above. -/
def trimRight (s : Str) : Str := (s.reverse.dropWhile isTrimChar).reverse

/-- strings.TrimLeft for the cutset above. -/
def trimLeft (s : Str) : Str := s.dropWhile isTrimChar

/-- strings.Trim(s, cutset) for the cutset space, carriage return,
newline: both ends trimmed. -/
def goTrim (s : Str) : Str := trimLeft (trimRight s)

/-- strings.TrimLeft(s, space) used on the offset field before
strconv.ParseInt. -/
def trimLeftSpaces (s : Str) : Str := s.dropWhile (fun c => c = ' ')

/-- Leftmost split of s around the first occurrence of sep: some (pre,
post) with s = pre ++ sep ++ post and pre minimal, none when sep does not
occur (helper for the strings.Split model). -/
def breakOn (sep : Str) : Str → Option (Str × Str)
  | [] => none
  | c :: cs =>
    if sep.isPrefixOf (c :: cs) then some ([], (c :: cs).drop sep.length)
    else match breakOn sep cs with
      | none => none
      | some (pre, post) => some (c :: pre, post)

/-- Fueled body of the strings.Split model. -/
def goSplitF (sep : Str) : Nat → Str → List Str
  | 0, s => [s]
  | fuel + 1, s =>
    match breakOn sep s with
    | none => [s]
    | some (pre, post) => pre :: goSplitF sep fuel post

/-- strings.Split(s, sep).  For nonempty sep it splits around every
non-overlapping occurrence, leftmost first; for empty sep Go splits the
string into its characters. -/
def goSplit (sep s : Str) : List Str :=
  if sep.isEmpty then s.map (fun c => [c]) else goSplitF sep s.length s

/-- bufio Reader.ReadString with delimiter newline (function readString):
returns the data up to and including the first newline, or all remaining
data at end of file, together with the unread rest. -/
def readRecord : Str → Str × Str
  | [] => ([], [])
  | c :: cs =>
    if c = '\n' then ([c], cs)
    else
      let p := readRecord cs
      (c :: p.1, p.2)

/-- The successive records the readString loop of Sort obtains from the
file contents: maximal newline-terminated pieces, with a final
unterminated piece kept when the file does not end in a newline.  (The
extra empty read that Go performs at EOF when the file ends in a newline
produces no key and a zero length, so it is omitted.) -/
def fileRecords : Str → List Str
  | [] => []
  | c :: cs =>
    if c = '\n' then ['\n'] :: fileRecords cs
    else
      match fileRecords cs with
      | [] => [[c]]
      | r :: rs => (c :: r) :: rs

/-- Each record paired with its byte offset (variable recordStart),
starting from base. -/
def withOffsets (base : Nat) : List Str → List (Str × Nat)
  | [] => []
  | r :: rs => (r, base) :: withOffsets (base + r.length) rs

/-- One entry of the key spec: the 0-based column index COLIDX and the
pre-computed field width that the FORMAT verb %Ns carries.  (Sort builds
FORMAT with fmt.Sprintf of the float64 width; integral float64 values
print as plain integers, so the verb is exactly %Ns for the Nat width.) -/
abbrev KeySpec := Nat × Nat

/-- Outcome of one call of the closure returned by makeCompositeKeyFn.
The Go code has no error return: it either yields a key or panics with
an unclassified index-out-of-range fault at fields[v.COLIDX].  No code
path produces a classified malformed-record error; the constructor is
present so that the spec claim about it can be stated. -/
inductive KeyOutcome
  | ok (key : Str)
  | malformedRecord
  | indexFault
deriving DecidableEq

/-- The closure returned by makeCompositeKeyFn: split the record on the
separator, concatenate each selected field right-justified to its width,
append the group separator and the record offset right-justified to
seekLen.  An out-of-range column index is the unguarded panic. -/
def compositeKeyOutcome (sep : Str) (specs : List KeySpec) (seekLen : Nat)
    (record : Str) (recordStart : Nat) : KeyOutcome :=
  let fields := goSplit sep record
  match specs.mapM (fun cw => (fields.get? cw.1).map (padLeft cw.2)) with
  | none => .indexFault
  | some parts => .ok (parts.flatten ++ gsChar :: padLeft seekLen (natRepr recordStart))

/-- The composite key as an Option, none standing for the process fault. -/
def compositeKey (sep : Str) (specs : List KeySpec) (seekLen : Nat)
    (record : Str) (recordStart : Nat) : Option Str :=
  match compositeKeyOutcome sep specs seekLen record recordStart with
  | .ok k => some k
  | _ => none

/-- The comparison that decides which key is written first by a merge
step: ascending takes key1 when key1 < key2, descending takes key1 when
key1 > key2 (lines 229-245 of merge). -/
def winFirst (sortAsc : Bool) (a b : Str) : Bool :=
  if sortAsc then strLt a b else strLt b a

/-- The order in which a run is nondecreasing for the requested
direction: ascending means not (b < a), descending means not (a < b). -/
def leB (sortAsc : Bool) (a b : Str) : Bool := !(winFirst sortAsc b a)

/-- Insertion of a key into a run ordered by le. -/
def insertLe (le : Str → Str → Bool) (x : Str) : List Str → List Str
  | [] => [x]
  | y :: ys => if le x y then x :: y :: ys else y :: insertLe le x ys

/-- Insertion sort by le.  Models keys.Sort() respectively
sort.Sort(sort.Reverse(keys)): both produce a permutation that is
nondecreasing for leB; since all keys carry distinct offsets the sorted
arrangement is unique, so the choice of algorithm is immaterial. -/
def sortKeys (le : Str → Str → Bool) : List Str → List Str
  | [] => []
  | x :: xs => insertLe le x (sortKeys le xs)

/-- The line written for a key by fmt.Fprintln: the key and a newline. -/
def lineOf (k : Str) : Str := k ++ ['\n']

/-- One flushed run file: the batch of keys sorted for the requested
direction, one key per line. -/
def sortBatch (sortAsc : Bool) (keys : List Str) : List Str :=
  (sortKeys (leB sortAsc) keys).map lineOf

/-- Fueled body of the pairwise merge loop of func merge: both current
lines present, write the winner and re-read from that stream; once a
stream is exhausted the rest of the other is copied verbatim. -/
def mergeLinesF (sortAsc : Bool) : Nat → List Str → List Str → List Str
  | 0, xs, ys => xs ++ ys
  | _ + 1, [], ys => ys
  | _ + 1, xs, [] => xs
  | fuel + 1, x :: xs, y :: ys =>
    if winFirst sortAsc x y then x :: mergeLinesF sortAsc fuel xs (y :: ys)
    else y :: mergeLinesF sortAsc fuel (x :: xs) ys

/-- One merge task of func merge: the two key files combined into one. -/
def mergeLines (sortAsc : Bool) (xs ys : List Str) : List Str :=
  mergeLinesF sortAsc (xs.length + ys.length) xs ys

/-- One round of the pass scheduler: pair up the surviving run files two
at a time in listing order and merge each pair (lines 141-152 of Sort);
an odd run is carried to the next round unchanged. -/
def mergeRound (sortAsc : Bool) : List (List Str) → List (List Str)
  | r1 :: r2 :: rest => mergeLines sortAsc r1 r2 :: mergeRound sortAsc rest
  | rs => rs

/-- Fueled iteration of rounds until at most one run remains. -/
def mergePassesF (sortAsc : Bool) : Nat → List (List Str) → List (List Str)
  | 0, rs => rs
  | fuel + 1, rs => if rs.length ≤ 1 then rs else mergePassesF sortAsc fuel (mergeRound sortAsc rs)

/-- All merge rounds; the initial run count is sufficient fuel because
every round with at least two runs strictly shrinks the population. -/
def mergePasses (sortAsc : Bool) (rs : List (List Str)) : List (List Str) :=
  mergePassesF sortAsc rs.length rs

/-- One record of the width pre-pass (lines 87-89 of Sort): update
widths[k] with the length of field k for every field of the record.  A
record with more fields than the widths slice is the unguarded
index-out-of-range fault. -/
def updWidths : List Nat → List Str → Option (List Nat)
  | ws, [] => some ws
  | [], _ :: _ => none
  | w :: ws, f :: fs => (updWidths ws fs).map (fun r => max w f.length :: r)

/-- The width pre-pass fold over all records. -/
def widthsFold (sep : Str) : List Nat → List Str → Option (List Nat)
  | ws, [] => some ws
  | ws, r :: rs =>
    match updWidths ws (goSplit sep (goTrim r)) with
    | none => none
    | some ws2 => widthsFold sep ws2 rs

/-- The width pre-pass of Sort (lines 74-90): the widths slice is sized
from the field count of the raw first record (newline included), then
every trimmed record updates it.  (The empty extra read at EOF never
changes any width, so it is omitted.) -/
def computeWidths (sep : Str) (file : Str) : Option (List Nat) :=
  let recs := fileRecords file
  widthsFold sep (List.replicate (goSplit sep (recs.headD [])).length 0) recs

/-- Key specs from the parsed 0-based column list (lines 98-104 of
Sort): widths[colIdx] with an out-of-range index is the panic.  Parsing
of the usingFields CSV itself (strconv.Atoi) is argument handling and is
not modelled; cols is the list of already parsed 0-based indexes. -/
def mkKeySpecs (ws : List Nat) (cols : List Nat) : Option (List KeySpec) :=
  cols.mapM (fun c => (ws.get? c).map (fun w => (c, w)))

/-- The run-building loop of Sort (lines 109-134): walk the records with
their offsets, key every record that is nonblank after trimming, and
flush the key buffer as a sorted run when it reaches keysPerSort or at
end of input.  keysPerSort is a Go int, hence Int here; a negative value
never matches the length test and so only the final flush happens. -/
def buildRuns (sortAsc : Bool) (sep : Str) (specs : List KeySpec) (seekLen : Nat)
    (kps : Int) : List Str → List Str → Nat → Option (List (List Str))
  | [], keys, _ => some (if keys.isEmpty then [] else [sortBatch sortAsc keys])
  | r :: rs, keys, off =>
    (if (goTrim r).isEmpty then some keys
     else (compositeKey sep specs seekLen (goTrim r) off).map (fun k => keys ++ [k])).bind
      (fun keys2 =>
        if ¬keys2.isEmpty ∧ (keys2.length : Int) = kps then
          (buildRuns sortAsc sep specs seekLen kps rs [] (off + r.length)).map
            (fun rest => sortBatch sortAsc keys2 :: rest)
        else buildRuns sortAsc sep specs seekLen kps rs keys2 (off + r.length))

/-- bufio.Scanner text for one line of a run file: ScanLines drops the
trailing newline and one carriage return before it. -/
def scanLine (l : Str) : Str :=
  let l1 := if l.getLast? = some '\n' then l.dropLast else l
  if l1.getLast? = some '\r' then l1.dropLast else l1

/-- Whether c is a decimal digit byte. -/
def isDigitB (c : Char) : Bool := 48 ≤ c.toNat && c.toNat ≤ 57

/-- A nonempty all-digit string parsed to its value, else none. -/
def parseDigits (s : Str) : Option Nat :=
  if ¬s.isEmpty ∧ s.all isDigitB then some (valFn s) else none

/-- strconv.ParseInt(s, 10, 64): optional sign then decimal digits;
anything else is a parse error (halt).  The int64 range check is not
modelled (offsets of realizable files never reach it). -/
def parseGoInt : Str → Option Int
  | [] => none
  | c :: rest =>
    if c = '-' then (parseDigits rest).map (fun n => -(n : Int))
    else if c = '+' then (parseDigits rest).map (fun n => (n : Int))
    else (parseDigits (c :: rest)).map (fun n => (n : Int))

/-- The materializer body for one key line (lines 161-170 of Sort):
scan the line, split on the group separator, parse element 1 as the
offset (a missing element or a parse failure, or a negative seek, halts)
and read one record from that offset of the source. -/
def recoverChunk (file : Str) (line : Str) : Option Str :=
  match (goSplit [gsChar] (scanLine line)).get? 1 with
  | none => none
  | some part =>
    match parseGoInt (trimLeftSpaces part) with
    | none => none
    | some off => if 0 ≤ off then some (readRecord (file.drop off.toNat)).1 else none

/-- The materializer over the whole final key file: each key line is
resolved to its source record, written verbatim with no added
terminator. -/
def materialize (file : Str) (lines : List Str) : Option (List Str) :=
  lines.mapM (recoverChunk file)

/-- The argument and source checks at the top of Sort (lines 51-56):
empty input path, empty output path, empty usingFields, keysPerSort
equal to zero, missing source or empty source are each fatal. -/
def sortArgsOk (inFile outFile usingFields : Str) (keysPerSort : Int)
    (srcExists : Bool) (srcSize : Nat) : Bool :=
  !inFile.isEmpty && !outFile.isEmpty && !usingFields.isEmpty &&
    keysPerSort != 0 && srcExists && srcSize != 0

/-- Width pre-pass, key specs and initial sorted runs of one Sort call. -/
def initialRuns (sortAsc : Bool) (cols : List Nat) (sep : Str) (kps : Int)
    (file : Str) : Option (List (List Str)) := do
  let ws ← computeWidths sep file
  let specs ← mkKeySpecs ws cols
  buildRuns sortAsc sep specs (natRepr file.length).length kps (fileRecords file) [] 0

/-- The single surviving key file after all merge rounds.  When no run
was ever produced, Sort panics at todo[0] (index out of range), hence
none. -/
def finalKeyLines (sortAsc : Bool) (cols : List Nat) (sep : Str) (kps : Int)
    (file : Str) : Option (List Str) :=
  (initialRuns sortAsc cols sep kps file).bind (fun runs =>
    match mergePasses sortAsc runs with
    | [r] => some r
    | _ => none)

/-- The whole engine behind Sort after argument checks: the contents of
the destination file it writes, none standing for a halt or panic. -/
def sortFile (sortAsc : Bool) (cols : List Nat) (sep : Str) (kps : Int)
    (file : Str) : Option Str :=
  (finalKeyLines sortAsc cols sep kps file).bind (fun lines =>
    (materialize file lines).map List.flatten)

/-! ### Facts about the bytewise comparison -/

lemma strLt_irrefl : ∀ a : Str, strLt a a = false := by
  intro a
  induction a with
  | nil => rfl
  | cons c cs ih => simp [strLt, ih]

lemma strLt_asymm : ∀ a b : Str, strLt a b = true → strLt b a = false := by
  intro a
  induction a with
  | nil => intro b h; cases b <;> simp_all [strLt]
  | cons c cs ih =>
    intro b h
    cases b with
    | nil => simp [strLt] at h
    | cons d ds =>
      simp only [strLt] at h ⊢
      by_cases hcd : c < d
      · simp [if_neg (asymm hcd), if_pos hcd]
      · by_cases hdc : d < c
        · simp [if_neg hcd, if_pos hdc] at h
        · have hcd2 : c = d := Char.le_antisymm (le_of_not_lt hdc) (le_of_not_lt hcd)
          subst hcd2
          simp only [if_neg (lt_irrefl c)] at h ⊢
          exact ih ds h

lemma strLt_connex : ∀ a b : Str, strLt a b = false → strLt b a = false → a = b := by
  intro a
  induction a with
  | nil => intro b h1 _; cases b <;> simp_all [strLt]
  | cons c cs ih =>
    intro b h1 h2
    cases b with
    | nil => simp [strLt] at h2
    | cons d ds =>
      simp only [strLt] at h1 h2
      by_cases hcd : c < d
      · simp [if_pos hcd] at h1
      · by_cases hdc : d < c
        · simp [if_neg (asymm hdc), if_pos hdc] at h2
        · have hcd2 : c = d := Char.le_antisymm (le_of_not_lt hdc) (le_of_not_lt hcd)
          subst hcd2
          simp only [if_neg (lt_irrefl c)] at h1 h2
          rw [ih ds h1 h2]

/-- Appending suffixes to strings of equal length compares pointwise
first on the common-length prefixes. -/
lemma strLt_append_of_length_eq : ∀ a b x y : Str, a.length = b.length →
    (strLt (a ++ x) (b ++ y) = true ↔ (strLt a b = true ∨ (a = b ∧ strLt x y = true))) := by
  intro a
  induction a with
  | nil =>
    intro b x y hlen
    cases b with
    | nil => simp [strLt]
    | cons d ds => simp at hlen
  | cons c cs ih =>
    intro b x y hlen
    cases b with
    | nil => simp at hlen
    | cons d ds =>
      simp only [List.length_cons, Nat.succ_inj] at hlen
      show strLt (c :: (cs ++ x)) (d :: (ds ++ y)) = true ↔ _
      simp only [strLt]
      by_cases hcd : c < d
      · simp [if_pos hcd]
      · by_cases hdc : d < c
        · have hne : ¬(c :: cs = d :: ds) := by
            intro h; cases h; exact lt_irrefl c hdc
          simp [if_neg hcd, if_pos hdc, hne]
        · have hcd2 : c = d := Char.le_antisymm (le_of_not_lt hdc) (le_of_not_lt hcd)
          subst hcd2
          simp only [if_neg (lt_irrefl c)]
          rw [ih ds x y hlen]
          simp [List.cons.injEq]

lemma winFirst_asymm (asc : Bool) (a b : Str) (h : winFirst asc a b = true) :
    winFirst asc b a = false := by
  cases asc <;> simpa [winFirst] using strLt_asymm _ _ h

lemma leB_total (asc : Bool) (a b : Str) : leB asc a b = true ∨ leB asc b a = true := by
  by_cases h : winFirst asc b a = true
  · exact Or.inr (by simp [leB, winFirst_asymm asc b a h])
  · exact Or.inl (by simp [leB]; exact Bool.not_eq_true _ ▸ (by simpa using h))

lemma leB_of_winFirst (asc : Bool) (a b : Str) (h : winFirst asc a b = true) :
    leB asc a b = true := by
  simp [leB, winFirst_asymm asc a b h]

lemma leB_of_not_winFirst (asc : Bool) (a b : Str) (h : winFirst asc b a = false) :
    leB asc a b = true := by
  simp [leB, h]

/-! ### Facts about the decimal representation and padding -/

lemma char_ofNat_toNat {n : Nat} (h : n < 55296) : (Char.ofNat n).toNat = n := by
  have hv : n.isValidChar := Or.inl h
  simp only [Char.ofNat, dif_pos hv, Char.toNat, Char.ofNatAux]
  simp [UInt32.toNat]

lemma natDigitsF_zero : ∀ f, natDigitsF f 0 = [] := by
  intro f; cases f <;> simp [natDigitsF]

lemma natDigitsF_stable : ∀ n f1 f2, n ≤ f1 → n ≤ f2 →
    natDigitsF f1 n = natDigitsF f2 n := by
  intro n
  induction n using Nat.strong_induction_on with
  | _ n ih =>
    intro f1 f2 h1 h2
    rcases Nat.eq_zero_or_pos n with rfl | hn
    · rw [natDigitsF_zero, natDigitsF_zero]
    · match f1, f2, Nat.lt_of_lt_of_le hn h1, Nat.lt_of_lt_of_le hn h2 with
      | f1 + 1, f2 + 1, _, _ =>
        simp only [natDigitsF, if_neg (Nat.pos_iff_ne_zero.mp hn)]
        rw [ih (n / 10) (Nat.div_lt_self hn (by norm_num)) f1 f2
          (Nat.le_of_lt_succ (Nat.lt_of_lt_of_le (Nat.div_lt_self hn (by norm_num)) h1))
          (Nat.le_of_lt_succ (Nat.lt_of_lt_of_le (Nat.div_lt_self hn (by norm_num)) h2))]

lemma natDigitsF_all_digits : ∀ f n c, c ∈ natDigitsF f n → isDigitB c = true := by
  intro f
  induction f with
  | zero => intro n c h; simp [natDigitsF] at h
  | succ f ih =>
    intro n c h
    simp only [natDigitsF] at h
    split at h
    · simp at h
    · rcases List.mem_append.mp h with h | h
      · exact ih _ _ h
      · simp only [List.mem_singleton] at h
        subst h
        have hm : n % 10 < 10 := Nat.mod_lt _ (by norm_num)
        simp only [isDigitB, char_ofNat_toNat (show 48 + n % 10 < 55296 by omega)]
        simp
        omega

lemma valFn_append_digit (l : List Char) (c : Char) :
    valFn (l ++ [c]) = 10 * valFn l + (c.toNat - 48) := by
  simp [valFn, List.foldl_append]

lemma valFn_natDigitsF : ∀ n f, n ≤ f → valFn (natDigitsF f n) = n := by
  intro n
  induction n using Nat.strong_induction_on with
  | _ n ih =>
    intro f h
    rcases Nat.eq_zero_or_pos n with rfl | hn
    · rw [natDigitsF_zero]; rfl
    · match f, Nat.lt_of_lt_of_le hn h with
      | f + 1, _ =>
        simp only [natDigitsF, if_neg (Nat.pos_iff_ne_zero.mp hn)]
        rw [valFn_append_digit,
          ih (n / 10) (Nat.div_lt_self hn (by norm_num)) f
            (Nat.le_of_lt_succ (Nat.lt_of_lt_of_le (Nat.div_lt_self hn (by norm_num)) h))]
        have hm : n % 10 < 10 := Nat.mod_lt _ (by norm_num)
        rw [char_ofNat_toNat (show 48 + n % 10 < 55296 by omega)]
        omega

lemma valFn_natRepr (n : Nat) : valFn (natRepr n) = n := by
  unfold natRepr
  split
  · subst n; rfl
  · exact valFn_natDigitsF n n le_rfl

lemma natRepr_injective : ∀ m n, natRepr m = natRepr n → m = n := by
  intro m n h
  have := valFn_natRepr m
  rw [h, valFn_natRepr] at this
  omega

lemma natRepr_all_digits : ∀ n c, c ∈ natRepr n → isDigitB c = true := by
  intro n c h
  unfold natRepr at h
  split at h
  · simp at h; subst h; decide
  · exact natDigitsF_all_digits _ _ _ h

lemma natRepr_ne_nil (n : Nat) : natRepr n ≠ [] := by
  intro h
  have := valFn_natRepr n
  rw [h] at this
  unfold natRepr at h
  split at h
  · simp at h
  · rename_i hn
    simp [valFn] at this
    exact hn this.symm

lemma natDigitsF_length_mono : ∀ n m f1 f2, m ≤ n → m ≤ f1 → n ≤ f2 →
    (natDigitsF f1 m).length ≤ (natDigitsF f2 n).length := by
  intro n
  induction n using Nat.strong_induction_on with
  | _ n ih =>
    intro m f1 f2 hmn h1 h2
    rcases Nat.eq_zero_or_pos m with rfl | hm
    · rw [natDigitsF_zero]; simp
    · have hn : 0 < n := Nat.lt_of_lt_of_le hm hmn
      match f1, f2, Nat.lt_of_lt_of_le hm h1, Nat.lt_of_lt_of_le hn h2 with
      | f1 + 1, f2 + 1, _, _ =>
        simp only [natDigitsF, if_neg (Nat.pos_iff_ne_zero.mp hm),
          if_neg (Nat.pos_iff_ne_zero.mp hn), List.length_append, List.length_singleton]
        have hd : m / 10 ≤ n / 10 := Nat.div_le_div_right hmn
        have h1a : m / 10 ≤ f1 :=
          Nat.le_of_lt_succ (Nat.lt_of_lt_of_le (Nat.div_lt_self hm (by norm_num)) h1)
        have h2a : n / 10 ≤ f2 :=
          Nat.le_of_lt_succ (Nat.lt_of_lt_of_le (Nat.div_lt_self hn (by norm_num)) h2)
        have := ih (n / 10) (Nat.div_lt_self hn (by norm_num)) (m / 10) f1 f2 hd h1a h2a
        omega

lemma natRepr_length_mono {m n : Nat} (h : m ≤ n) :
    (natRepr m).length ≤ (natRepr n).length := by
  rcases Nat.eq_zero_or_pos m with rfl | hm
  · have h1 : (natRepr 0).length = 1 := rfl
    rw [h1]
    exact List.length_pos.mpr (natRepr_ne_nil n)
  · have hn : 0 < n := lt_of_lt_of_le hm h
    unfold natRepr
    rw [if_neg (by omega), if_neg (by omega)]
    exact natDigitsF_length_mono n m m n h le_rfl le_rfl

lemma padLeft_length {w : Nat} {s : Str} (h : s.length ≤ w) : (padLeft w s).length = w := by
  simp [padLeft]
  omega

lemma mem_padLeft {c : Char} {w : Nat} {s : Str} (h : c ∈ padLeft w s) :
    c = ' ' ∨ c ∈ s := by
  rcases List.mem_append.mp h with h | h
  · exact Or.inl (List.eq_of_mem_replicate h)
  · exact Or.inr h

lemma dropWhile_replicate_append (p : Char → Bool) (k : Nat) (s : Str) (hp : p ' ' = true) :
    List.dropWhile p (List.replicate k ' ' ++ s) = List.dropWhile p s := by
  induction k with
  | zero => simp
  | succ k ih => simp [List.replicate_succ, List.dropWhile, hp, ih]

lemma trimLeftSpaces_padLeft {w : Nat} {s : Str}
    (h : ∀ c ∈ s.take 1, c ≠ ' ') : trimLeftSpaces (padLeft w s) = s := by
  unfold trimLeftSpaces padLeft
  rw [dropWhile_replicate_append _ _ _ (by decide)]
  cases s with
  | nil => rfl
  | cons c cs =>
    have : c ≠ ' ' := h c (by simp)
    simp [List.dropWhile, this]

/-- The pad applied to the offset never contains the group separator. -/
lemma gs_not_mem_offsetPad (w n : Nat) : gsChar ∉ padLeft w (natRepr n) := by
  intro h
  rcases mem_padLeft h with h | h
  · exact absurd h (by decide)
  · have := natRepr_all_digits n _ h
    exact absurd this (by decide)

/-- Two decompositions around a separator absent from both suffixes
agree on the suffixes (and the prefixes). -/
lemma sep_decomposition_unique (g : Char) :
    ∀ (A B A2 B2 : Str), g ∉ B → g ∉ B2 → A ++ g :: B = A2 ++ g :: B2 →
      A = A2 ∧ B = B2 := by
  intro A
  induction A with
  | nil =>
    intro B A2 B2 hB hB2 h
    cases A2 with
    | nil =>
      simp only [List.nil_append, List.cons.injEq] at h
      exact ⟨rfl, h.2⟩
    | cons a A2t =>
      exfalso
      simp only [List.nil_append, List.cons_append, List.cons.injEq] at h
      apply hB
      rw [h.2, h.1]
      exact List.mem_append_right _ (List.mem_cons_self _ _)
  | cons a At ih =>
    intro B A2 B2 hB hB2 h
    cases A2 with
    | nil =>
      exfalso
      simp only [List.cons_append, List.nil_append, List.cons.injEq] at h
      apply hB2
      rw [← h.2, ← h.1]
      exact List.mem_append_right _ (List.mem_cons_self _ _)
    | cons a2 A2t =>
      simp only [List.cons_append, List.cons.injEq] at h
      obtain ⟨rfl, h2⟩ := h
      obtain ⟨hA, hBeq⟩ := ih B A2t B2 hB hB2 h2
      exact ⟨by rw [hA], hBeq⟩

/-! ### Shape and uniqueness of composite keys -/

/-- A successful composite key is the padded field parts followed by the
group separator and the padded offset. -/
lemma compositeKey_eq {sep : Str} {specs : List KeySpec} {seekLen : Nat} {record : Str}
    {off : Nat} {k : Str} (h : compositeKey sep specs seekLen record off = some k) :
    ∃ parts : List Str,
      specs.mapM (fun cw => ((goSplit sep record).get? cw.1).map (padLeft cw.2)) = some parts ∧
      k = parts.flatten ++ gsChar :: padLeft seekLen (natRepr off) := by
  simp only [compositeKey, compositeKeyOutcome] at h
  cases hparts : specs.mapM (fun cw => ((goSplit sep record).get? cw.1).map (padLeft cw.2)) with
  | none => rw [hparts] at h; simp at h
  | some parts =>
    rw [hparts] at h
    simp only [Option.some.injEq] at h
    exact ⟨parts, rfl, h.symm⟩

lemma digit_ne_space {c : Char} (h : isDigitB c = true) : c ≠ ' ' := by
  intro hc; subst hc; exact absurd h (by decide)

lemma natRepr_take_one_ne_space (n : Nat) : ∀ c ∈ (natRepr n).take 1, c ≠ ' ' := by
  intro c hc
  exact digit_ne_space (natRepr_all_digits n c (List.mem_of_mem_take hc))

/-- Core of the key-uniqueness invariant: keys built with the same spec
and seek width from records at different offsets are distinct. -/
lemma compositeKey_offset_injective {sep : Str} {specs : List KeySpec} {seekLen : Nat}
    {r1 r2 : Str} {n1 n2 : Nat} {k1 k2 : Str}
    (h1 : compositeKey sep specs seekLen r1 n1 = some k1)
    (h2 : compositeKey sep specs seekLen r2 n2 = some k2)
    (hne : n1 ≠ n2) : k1 ≠ k2 := by
  obtain ⟨p1, -, hk1⟩ := compositeKey_eq h1
  obtain ⟨p2, -, hk2⟩ := compositeKey_eq h2
  intro heq
  rw [hk1, hk2] at heq
  have hpad := (sep_decomposition_unique gsChar _ _ _ _
    (gs_not_mem_offsetPad seekLen n1) (gs_not_mem_offsetPad seekLen n2) heq).2
  have := congrArg trimLeftSpaces hpad
  rw [trimLeftSpaces_padLeft (natRepr_take_one_ne_space n1),
    trimLeftSpaces_padLeft (natRepr_take_one_ne_space n2)] at this
  exact hne (natRepr_injective _ _ this)

/-! ### Sorting and merging: permutation and order preservation -/

/-- The order in which every run is arranged for the requested direction,
as a relation for List.Chain'. -/
def RunLe (asc : Bool) (a b : Str) : Prop := leB asc a b = true

instance (asc : Bool) : DecidableRel (RunLe asc) := fun a b =>
  instDecidableEqBool (leB asc a b) true

lemma insertLe_perm (le : Str → Str → Bool) (x : Str) :
    ∀ l, List.Perm (insertLe le x l) (x :: l) := by
  intro l
  induction l with
  | nil => rfl
  | cons y ys ih =>
    simp only [insertLe]
    split
    · rfl
    · exact ((ih.cons y).trans (List.Perm.swap x y ys)).symm.symm

lemma sortKeys_perm (le : Str → Str → Bool) : ∀ l, List.Perm (sortKeys le l) l := by
  intro l
  induction l with
  | nil => rfl
  | cons x xs ih => exact (insertLe_perm le x (sortKeys le xs)).trans (ih.cons x)

lemma insertLe_chain {asc : Bool} {x : Str} :
    ∀ l, List.Chain' (RunLe asc) l → List.Chain' (RunLe asc) (insertLe (leB asc) x l) := by
  intro l
  induction l with
  | nil => intro _; simp [insertLe]
  | cons y ys ih =>
    intro h
    simp only [insertLe]
    by_cases hxy : leB asc x y = true
    · rw [if_pos hxy]
      exact List.chain'_cons.mpr ⟨hxy, h⟩
    · rw [if_neg hxy]
      have hyx : leB asc y x = true := (leB_total asc x y).resolve_left hxy
      cases ys with
      | nil => exact List.chain'_cons.mpr ⟨hyx, List.chain'_singleton x⟩
      | cons z zs =>
        have hchain := List.chain'_cons.mp h
        have ih2 := ih hchain.2
        simp only [insertLe] at ih2 ⊢
        by_cases hxz : leB asc x z = true
        · rw [if_pos hxz] at ih2 ⊢
          exact List.chain'_cons.mpr ⟨hyx, ih2⟩
        · rw [if_neg hxz] at ih2 ⊢
          exact List.chain'_cons.mpr ⟨hchain.1, ih2⟩

lemma sortKeys_chain (asc : Bool) : ∀ l, List.Chain' (RunLe asc) (sortKeys (leB asc) l) := by
  intro l
  induction l with
  | nil => simp [sortKeys]
  | cons x xs ih => exact insertLe_chain _ ih

lemma mergeLinesF_perm (asc : Bool) :
    ∀ fuel xs ys, xs.length + ys.length ≤ fuel →
      List.Perm (mergeLinesF asc fuel xs ys) (xs ++ ys) := by
  intro fuel
  induction fuel with
  | zero => intro xs ys _; exact List.Perm.refl _
  | succ fuel ih =>
    intro xs ys hlen
    match xs, ys with
    | [], ys => simp [mergeLinesF]
    | x :: xs, [] => simp [mergeLinesF]
    | x :: xs, y :: ys =>
      simp only [mergeLinesF]
      split
      · exact (ih xs (y :: ys) (by simp at hlen ⊢; omega)).cons x
      · have h1 := (ih (x :: xs) ys (by simp at hlen ⊢; omega)).cons y
        exact h1.trans List.perm_middle.symm

lemma mergeLinesF_head (asc : Bool) :
    ∀ fuel xs ys z, (mergeLinesF asc fuel xs ys).head? = some z →
      xs.head? = some z ∨ ys.head? = some z := by
  intro fuel
  cases fuel with
  | zero =>
    intro xs ys z h
    simp only [mergeLinesF] at h
    cases xs with
    | nil => exact Or.inr h
    | cons x xt => exact Or.inl (by simpa using h)
  | succ fuel =>
    intro xs ys z h
    match xs, ys with
    | [], ys => simp only [mergeLinesF] at h; exact Or.inr h
    | x :: xs, [] => simp only [mergeLinesF] at h; exact Or.inl h
    | x :: xs, y :: ys =>
      simp only [mergeLinesF] at h
      split at h
      · exact Or.inl (by simpa using h)
      · exact Or.inr (by simpa using h)

lemma mergeLinesF_chain (asc : Bool) :
    ∀ fuel xs ys, xs.length + ys.length ≤ fuel →
      List.Chain' (RunLe asc) xs → List.Chain' (RunLe asc) ys →
      List.Chain' (RunLe asc) (mergeLinesF asc fuel xs ys) := by
  intro fuel
  induction fuel with
  | zero =>
    intro xs ys hlen _ _
    have hx : xs = [] := by cases xs <;> simp_all
    have hy : ys = [] := by cases ys <;> simp_all
    subst hx; subst hy
    simp [mergeLinesF]
  | succ fuel ih =>
    intro xs ys hlen hxs hys
    match xs, ys with
    | [], ys => simpa [mergeLinesF] using hys
    | x :: xs, [] => simpa [mergeLinesF] using hxs
    | x :: xs, y :: ys =>
      simp only [mergeLinesF]
      split
      · rename_i hwin
        apply List.chain'_cons'.mpr
        refine ⟨?_, ih xs (y :: ys) (by simp at hlen ⊢; omega) hxs.tail hys⟩
        intro b hb
        rcases mergeLinesF_head asc fuel xs (y :: ys) b hb with hh | hh
        · exact (List.chain'_cons'.mp hxs).1 b hh
        · have hb2 : y = b := by simpa using hh
          rw [← hb2]
          exact leB_of_winFirst asc x y hwin
      · rename_i hwin
        apply List.chain'_cons'.mpr
        refine ⟨?_, ih (x :: xs) ys (by simp at hlen ⊢; omega) hxs hys.tail⟩
        intro b hb
        rcases mergeLinesF_head asc fuel (x :: xs) ys b hb with hh | hh
        · have hb2 : x = b := by simpa using hh
          rw [← hb2]
          exact leB_of_not_winFirst asc y x ((Bool.not_eq_true _).mp hwin)
        · exact (List.chain'_cons'.mp hys).1 b hh

lemma mergeLines_perm (asc : Bool) (xs ys : List Str) :
    List.Perm (mergeLines asc xs ys) (xs ++ ys) :=
  mergeLinesF_perm asc _ xs ys le_rfl

lemma mergeLines_chain (asc : Bool) {xs ys : List Str}
    (hxs : List.Chain' (RunLe asc) xs) (hys : List.Chain' (RunLe asc) ys) :
    List.Chain' (RunLe asc) (mergeLines asc xs ys) :=
  mergeLinesF_chain asc _ xs ys le_rfl hxs hys

lemma mergeRound_flatten_perm (asc : Bool) :
    ∀ rs : List (List Str), List.Perm (mergeRound asc rs).flatten rs.flatten
  | [] => by simp [mergeRound]
  | [r] => by simp [mergeRound]
  | r1 :: r2 :: rest => by
    simp only [mergeRound, List.flatten_cons]
    have h1 := (mergeLines_perm asc r1 r2).append (mergeRound_flatten_perm asc rest)
    refine h1.trans (List.Perm.of_eq ?_)
    simp [List.append_assoc]

lemma mergeRound_chain (asc : Bool) :
    ∀ rs : List (List Str), (∀ r ∈ rs, List.Chain' (RunLe asc) r) →
      ∀ r ∈ mergeRound asc rs, List.Chain' (RunLe asc) r
  | [] => by simp [mergeRound]
  | [r] => by simp [mergeRound]
  | r1 :: r2 :: rest => by
    intro h r hr
    simp only [mergeRound, List.mem_cons] at hr
    rcases hr with rfl | hr
    · exact mergeLines_chain asc (h r1 (by simp)) (h r2 (by simp))
    · exact mergeRound_chain asc rest (fun q hq => h q (by simp [hq])) r hr

lemma mergeRound_length_le (asc : Bool) :
    ∀ rs : List (List Str), (mergeRound asc rs).length ≤ rs.length
  | [] => by simp [mergeRound]
  | [r] => by simp [mergeRound]
  | r1 :: r2 :: rest => by
    simp only [mergeRound, List.length_cons]
    have := mergeRound_length_le asc rest
    omega

lemma mergePassesF_flatten_perm (asc : Bool) :
    ∀ fuel rs, List.Perm (mergePassesF asc fuel rs).flatten rs.flatten := by
  intro fuel
  induction fuel with
  | zero => intro rs; exact List.Perm.refl _
  | succ fuel ih =>
    intro rs
    simp only [mergePassesF]
    split
    · exact List.Perm.refl _
    · exact (ih (mergeRound asc rs)).trans (mergeRound_flatten_perm asc rs)

lemma mergePassesF_chain (asc : Bool) :
    ∀ fuel rs, (∀ r ∈ rs, List.Chain' (RunLe asc) r) →
      ∀ r ∈ mergePassesF asc fuel rs, List.Chain' (RunLe asc) r := by
  intro fuel
  induction fuel with
  | zero => intro rs h; exact h
  | succ fuel ih =>
    intro rs h
    simp only [mergePassesF]
    split
    · exact h
    · exact ih (mergeRound asc rs) (mergeRound_chain asc rs h)

lemma mergeRound_length_lt (asc : Bool) :
    ∀ rs : List (List Str), 2 ≤ rs.length → (mergeRound asc rs).length < rs.length
  | [] => by intro h; simp at h
  | [r] => by intro h; simp at h
  | r1 :: r2 :: rest => by
    intro _
    simp only [mergeRound, List.length_cons]
    have := mergeRound_length_le asc rest
    omega

lemma mergePassesF_length (asc : Bool) :
    ∀ fuel rs, rs.length ≤ fuel → (mergePassesF asc fuel rs).length ≤ 1 := by
  intro fuel
  induction fuel with
  | zero => intro rs h; simp only [mergePassesF]; omega
  | succ fuel ih =>
    intro rs h
    simp only [mergePassesF]
    split
    · omega
    · rename_i hgt
      apply ih
      have := mergeRound_length_lt asc rs (by omega)
      omega

lemma mergePasses_flatten_perm (asc : Bool) (rs : List (List Str)) :
    List.Perm (mergePasses asc rs).flatten rs.flatten :=
  mergePassesF_flatten_perm asc rs.length rs

lemma mergePasses_chain (asc : Bool) (rs : List (List Str))
    (h : ∀ r ∈ rs, List.Chain' (RunLe asc) r) :
    ∀ r ∈ mergePasses asc rs, List.Chain' (RunLe asc) r :=
  mergePassesF_chain asc rs.length rs h

/-! ### Records of a file and offset lookup -/

lemma readRecord_append : ∀ s : Str, (readRecord s).1 ++ (readRecord s).2 = s := by
  intro s
  induction s with
  | nil => rfl
  | cons c cs ih =>
    simp only [readRecord]
    split
    · rename_i h; rw [h]; rfl
    · simpa using ih

lemma readRecord_fst_ne_nil {s : Str} (h : s ≠ []) : (readRecord s).1 ≠ [] := by
  cases s with
  | nil => exact absurd rfl h
  | cons c cs =>
    simp only [readRecord]
    split <;> simp

lemma fileRecords_cons_eq : ∀ s : Str, s ≠ [] →
    fileRecords s = (readRecord s).1 :: fileRecords (readRecord s).2 := by
  intro s
  induction s with
  | nil => intro h; exact absurd rfl h
  | cons c cs ih =>
    intro _
    simp only [fileRecords, readRecord]
    split
    · rename_i h; subst h; rfl
    · rcases eq_or_ne cs [] with rfl | hne
      · rfl
      · rw [ih hne]

lemma fileRecords_flatten : ∀ s : Str, (fileRecords s).flatten = s := by
  intro s
  induction s with
  | nil => rfl
  | cons c cs ih =>
    simp only [fileRecords]
    split
    · rename_i h; rw [h]; simpa using ih
    · cases hcs : fileRecords cs with
      | nil =>
        rw [hcs] at ih
        simp only [List.flatten_nil] at ih
        rw [← ih]
        rfl
      | cons r rs =>
        rw [hcs] at ih
        simp only [List.flatten_cons] at ih ⊢
        simpa using ih

/-- Every record is nonempty and consists of a newline-free body,
possibly followed by the terminating newline. -/
lemma fileRecords_shape : ∀ s : Str, ∀ r ∈ fileRecords s,
    r ≠ [] ∧ ∃ p, '\n' ∉ p ∧ (r = p ++ ['\n'] ∨ r = p) := by
  intro s
  induction s with
  | nil => simp [fileRecords]
  | cons c cs ih =>
    intro r hr
    simp only [fileRecords] at hr
    split at hr
    · rename_i hc
      rcases List.mem_cons.mp hr with rfl | hr
      · exact ⟨by simp, [], by simp, Or.inl (by simp)⟩
      · exact ih r hr
    · rename_i hc
      cases hcs : fileRecords cs with
      | nil =>
        rw [hcs] at hr
        simp only [List.mem_singleton] at hr
        subst hr
        refine ⟨by simp, [c], ?_, Or.inr rfl⟩
        intro hmem
        simp only [List.mem_singleton] at hmem
        exact hc hmem.symm
      | cons r1 rs =>
        rw [hcs] at hr
        rcases List.mem_cons.mp hr with rfl | hr
        · obtain ⟨-, p1, hp1, hshape⟩ := ih r1 (hcs ▸ List.mem_cons_self _ _)
          refine ⟨by simp, c :: p1, ?_, ?_⟩
          · intro hmem
            rcases List.mem_cons.mp hmem with h | h
            · exact hc h.symm
            · exact hp1 h
          rcases hshape with h1 | h1
          · exact Or.inl (by rw [h1]; rfl)
          · exact Or.inr (by rw [h1])
        · exact ih r (hcs ▸ List.mem_cons_of_mem _ hr)

lemma withOffsets_add : ∀ (rs : List Str) (b1 b2 : Nat),
    withOffsets (b1 + b2) rs = (withOffsets b1 rs).map (fun p => (p.1, p.2 + b2)) := by
  intro rs
  induction rs with
  | nil => intro b1 b2; rfl
  | cons r rt ih =>
    intro b1 b2
    simp only [withOffsets, List.map_cons]
    rw [show b1 + b2 + r.length = b1 + r.length + b2 by omega, ih]

lemma withOffsets_shift (rs : List Str) (b : Nat) :
    withOffsets b rs = (withOffsets 0 rs).map (fun p => (p.1, p.2 + b)) := by
  rw [← withOffsets_add]
  norm_num

lemma withOffsets_bound : ∀ (rs : List Str) (b : Nat) (r : Str) (o : Nat),
    (r, o) ∈ withOffsets b rs → b ≤ o ∧ o + r.length ≤ b + rs.flatten.length := by
  intro rs
  induction rs with
  | nil => intro b r o h; simp [withOffsets] at h
  | cons q qt ih =>
    intro b r o h
    simp only [withOffsets, List.mem_cons] at h
    rcases h with h | h
    · obtain ⟨rfl, rfl⟩ := Prod.mk.injEq .. ▸ h
      simp only [List.flatten_cons, List.length_append]
      omega
    · have := ih (b + q.length) r o h
      simp only [List.flatten_cons, List.length_append] at this ⊢
      omega

/-- Looking up a record of the file by its recorded offset returns
exactly that record. -/
lemma recordAt_eq : ∀ (n : Nat) (s : Str), s.length ≤ n →
    ∀ r o, (r, o) ∈ withOffsets 0 (fileRecords s) → (readRecord (s.drop o)).1 = r := by
  intro n
  induction n with
  | zero =>
    intro s hlen r o hro
    have : s = [] := List.length_eq_zero.mp (Nat.le_zero.mp hlen)
    subst this
    simp [fileRecords, withOffsets] at hro
  | succ n ih =>
    intro s hlen r o hro
    rcases eq_or_ne s [] with rfl | hne
    · simp [fileRecords, withOffsets] at hro
    · rw [fileRecords_cons_eq s hne] at hro
      simp only [withOffsets, List.mem_cons] at hro
      rcases hro with heq | hro
      · obtain ⟨rfl, rfl⟩ := Prod.mk.injEq .. ▸ heq
        simp
      · rw [Nat.zero_add, withOffsets_shift] at hro
        set r1 := (readRecord s).1 with hr1
        set rest := (readRecord s).2 with hrest
        obtain ⟨⟨r2, o2⟩, hp, hpe⟩ := List.mem_map.mp hro
        obtain ⟨rfl, rfl⟩ := Prod.mk.injEq .. ▸ hpe
        have hsplit : r1 ++ rest = s := readRecord_append s
        have hdrop : s.drop (o2 + r1.length) = rest.drop o2 := by
          rw [← hsplit, show o2 + r1.length = r1.length + o2 by omega]
          rw [← List.drop_drop, List.drop_left]
        rw [hdrop]
        apply ih rest ?_ r2 o2 hp
        have h1 : r1 ≠ [] := readRecord_fst_ne_nil hne
        have h2 : r1.length + rest.length = s.length := by
          rw [← List.length_append, hsplit]
        have h3 : 0 < r1.length := List.length_pos.mpr h1
        omega

/-! ### Splitting, trimming and scanning lemmas -/

lemma breakOn_some (sep : Str) : ∀ s pre post, breakOn sep s = some (pre, post) →
    s = pre ++ sep ++ post := by
  intro s
  induction s with
  | nil => intro pre post h; simp [breakOn] at h
  | cons c cs ih =>
    intro pre post h
    simp only [breakOn] at h
    split at h
    · rename_i hpre
      obtain ⟨t, ht⟩ := List.isPrefixOf_iff_prefix.mp hpre
      simp only [Option.some.injEq, Prod.mk.injEq] at h
      obtain ⟨rfl, rfl⟩ := h
      rw [List.nil_append, ← ht, List.drop_left]
    · split at h
      · simp at h
      · rename_i pre2 post2 heq
        simp only [Option.some.injEq, Prod.mk.injEq] at h
        obtain ⟨rfl, rfl⟩ := h
        rw [ih pre2 post2 heq]
        simp

lemma breakOn_single_not_mem {g : Char} : ∀ s : Str, g ∉ s → breakOn [g] s = none := by
  intro s
  induction s with
  | nil => intro _; rfl
  | cons c cs ih =>
    intro h
    have hcg : ¬c = g := fun hc => h (by simp [hc])
    simp only [breakOn]
    rw [if_neg, ih (fun hm => h (List.mem_cons_of_mem _ hm))]
    simp [List.isPrefixOf, hcg]
    intro hgc
    exact absurd hgc.symm hcg

lemma breakOn_single_prefix {g : Char} : ∀ A B : Str, g ∉ A →
    breakOn [g] (A ++ g :: B) = some (A, B) := by
  intro A
  induction A with
  | nil =>
    intro B _
    simp only [List.nil_append, breakOn]
    rw [if_pos (by simp [List.isPrefixOf])]
    simp
  | cons a At ih =>
    intro B h
    have hag : ¬a = g := fun hc => h (by simp [hc])
    simp only [List.cons_append, breakOn, List.append_eq]
    rw [if_neg, ih B (fun hm => h (List.mem_cons_of_mem _ hm))]
    simp [List.isPrefixOf]
    intro hga
    exact absurd hga.symm hag

lemma goSplitF_single_not_mem {g : Char} (fuel : Nat) (s : Str) (h : g ∉ s) :
    goSplitF [g] fuel s = [s] := by
  cases fuel with
  | zero => rfl
  | succ fuel => simp [goSplitF, breakOn_single_not_mem s h]

/-- Splitting a string around its unique group separator yields exactly
the part before and the part after. -/
lemma goSplit_single {g : Char} (A B : Str) (hA : g ∉ A) (hB : g ∉ B) :
    goSplit [g] (A ++ g :: B) = [A, B] := by
  unfold goSplit
  rw [if_neg (by simp)]
  have hlen : (A ++ g :: B).length = A.length + B.length + 1 := by simp; omega
  rw [hlen]
  simp only [goSplitF, breakOn_single_prefix A B hA]
  rw [goSplitF_single_not_mem _ _ hB]

lemma mem_of_mem_goSplitF (sep : Str) : ∀ fuel s piece c,
    piece ∈ goSplitF sep fuel s → c ∈ piece → c ∈ s := by
  intro fuel
  induction fuel with
  | zero =>
    intro s piece c hp hc
    simp only [goSplitF, List.mem_singleton] at hp
    exact hp ▸ hc
  | succ fuel ih =>
    intro s piece c hp hc
    simp only [goSplitF] at hp
    split at hp
    · simp only [List.mem_singleton] at hp
      exact hp ▸ hc
    · rename_i pre post heq
      rcases List.mem_cons.mp hp with rfl | hp
      · rw [breakOn_some sep s piece post heq]
        simp [hc]
      · rw [breakOn_some sep s pre post heq]
        have := ih post piece c hp hc
        simp [this]

lemma mem_of_mem_goSplit {sep s piece : Str} {c : Char}
    (hp : piece ∈ goSplit sep s) (hc : c ∈ piece) : c ∈ s := by
  unfold goSplit at hp
  split at hp
  · obtain ⟨d, hd, rfl⟩ := List.mem_map.mp hp
    simp only [List.mem_singleton] at hc
    exact hc ▸ hd
  · exact mem_of_mem_goSplitF sep s.length s piece c hp hc

lemma mem_of_mem_trimRight {s : Str} {c : Char} (h : c ∈ trimRight s) : c ∈ s := by
  unfold trimRight at h
  rw [List.mem_reverse] at h
  have := (List.dropWhile_sublist (l := s.reverse) (p := isTrimChar)).mem h
  rwa [List.mem_reverse] at this

lemma mem_of_mem_goTrim {s : Str} {c : Char} (h : c ∈ goTrim s) : c ∈ s := by
  unfold goTrim trimLeft at h
  exact mem_of_mem_trimRight ((List.dropWhile_sublist _).mem h)

/-- Trimming ignores a final newline. -/
lemma goTrim_append_newline (p : Str) : goTrim (p ++ ['\n']) = goTrim p := by
  unfold goTrim trimRight
  rw [List.reverse_append]
  simp [List.dropWhile, isTrimChar]

/-- Scanning a newline-terminated line whose body does not end in a
carriage return returns the body. -/
lemma scanLine_lineOf {k : Str} (h : k.getLast? ≠ some '\r') : scanLine (lineOf k) = k := by
  simp [scanLine, lineOf, List.getLast?_concat, List.dropLast_concat, h]

lemma parseDigits_natRepr (n : Nat) : parseDigits (natRepr n) = some n := by
  unfold parseDigits
  rw [if_pos, valFn_natRepr]
  refine ⟨by simpa using natRepr_ne_nil n, ?_⟩
  rw [List.all_eq_true]
  exact natRepr_all_digits n

lemma parseGoInt_natRepr (n : Nat) : parseGoInt (natRepr n) = some (n : Int) := by
  cases hn : natRepr n with
  | nil => exact absurd hn (natRepr_ne_nil n)
  | cons c rest =>
    have hc : isDigitB c = true := natRepr_all_digits n c (hn ▸ List.mem_cons_self _ _)
    have h1 : ¬c = '-' := by
      intro h; rw [h] at hc; exact absurd hc (by decide)
    have h2 : ¬c = '+' := by
      intro h; rw [h] at hc; exact absurd hc (by decide)
    show (if c = '-' then (parseDigits rest).map (fun m => -(m : Int))
      else if c = '+' then (parseDigits rest).map (fun m => (m : Int))
      else (parseDigits (c :: rest)).map (fun m => (m : Int))) = some (n : Int)
    rw [if_neg h1, if_neg h2, ← hn, parseDigits_natRepr]
    rfl

/-- The materializer recovers the source record of any well-formed key
line whose field part is free of the group separator. -/
lemma recoverChunk_lineOf {file P : Str} {seekLen o : Nat} (hP : gsChar ∉ P) :
    recoverChunk file (lineOf (P ++ gsChar :: padLeft seekLen (natRepr o))) =
      some (readRecord (file.drop o)).1 := by
  have hpad_ne : padLeft seekLen (natRepr o) ≠ [] := by
    unfold padLeft
    intro h
    rcases List.append_eq_nil.mp h with ⟨-, h2⟩
    exact natRepr_ne_nil o h2
  have hlast : (P ++ gsChar :: padLeft seekLen (natRepr o)).getLast? ≠ some '\r' := by
    rw [show (P ++ gsChar :: padLeft seekLen (natRepr o)) =
      (P ++ [gsChar]) ++ padLeft seekLen (natRepr o) by simp]
    rw [List.getLast?_append_of_ne_nil _ hpad_ne]
    intro h
    have hmem := List.mem_of_mem_getLast? h
    rcases mem_padLeft hmem with h2 | h2
    · exact absurd h2 (by decide)
    · exact absurd (natRepr_all_digits o _ h2) (by decide)
  unfold recoverChunk
  rw [scanLine_lineOf hlast, goSplit_single P _ hP (gs_not_mem_offsetPad seekLen o)]
  simp only [List.get?]
  rw [trimLeftSpaces_padLeft (natRepr_take_one_ne_space o), parseGoInt_natRepr]
  show (if (0 : Int) ≤ (o : Int) then some (readRecord (file.drop ((o : Int)).toNat)).1 else none) =
    some (readRecord (file.drop o)).1
  rw [if_pos (by positivity)]
  simp

/-! ### Option mapM helpers -/

lemma mapM_some_forall₂ {α β : Type} {f : α → Option β} :
    ∀ {l : List α} {out : List β}, l.mapM f = some out →
      List.Forall₂ (fun a b => f a = some b) l out := by
  intro l
  induction l with
  | nil =>
    intro out h
    simp only [List.mapM_nil, Option.pure_def, Option.some.injEq] at h
    rw [← h]
    exact List.Forall₂.nil
  | cons a l ih =>
    intro out h
    simp only [List.mapM_cons, Option.pure_def, Option.bind_eq_bind, Option.bind_eq_some,
      Option.some.injEq] at h
    obtain ⟨b, hb, bs, hbs, rfl⟩ := h
    exact List.Forall₂.cons hb (ih hbs)

lemma mapM_eq_map {α β : Type} {f : α → Option β} {g : α → β} :
    ∀ l : List α, (∀ a ∈ l, f a = some (g a)) → l.mapM f = some (l.map g) := by
  intro l
  induction l with
  | nil => intro _; rfl
  | cons a l ih =>
    intro h
    simp only [List.mapM_cons, h a (List.mem_cons_self _ _),
      ih (fun x hx => h x (List.mem_cons_of_mem _ hx)), Option.pure_def,
      Option.bind_eq_bind, Option.some_bind, List.map_cons]

lemma forall₂_mem_right {α β : Type} {R : α → β → Prop} :
    ∀ {l : List α} {out : List β}, List.Forall₂ R l out → ∀ b ∈ out, ∃ a ∈ l, R a b := by
  intro l out h
  induction h with
  | nil => simp
  | cons ha hl ih =>
    intro b hb
    rcases List.mem_cons.mp hb with rfl | hb
    · exact ⟨_, List.mem_cons_self _ _, ha⟩
    · obtain ⟨a, hal, har⟩ := ih b hb
      exact ⟨a, List.mem_cons_of_mem _ hal, har⟩

lemma forall₂_map_eq {α β γ : Type} {R : α → β → Prop} {g : β → γ} {h : α → γ} :
    ∀ {l : List α} {out : List β}, List.Forall₂ R l out →
      (∀ a ∈ l, ∀ b, R a b → g b = h a) → out.map g = l.map h := by
  intro l out hf
  induction hf with
  | nil => intro _; rfl
  | cons ha hl ih =>
    intro hgh
    simp only [List.map_cons]
    rw [hgh _ (List.mem_cons_self _ _) _ ha,
      ih (fun a hma b hr => hgh a (List.mem_cons_of_mem _ hma) b hr)]

lemma mapM_eq_none_of_mem {α β : Type} {f : α → Option β} :
    ∀ (l : List α) {a : α}, a ∈ l → f a = none → l.mapM f = none := by
  intro l
  induction l with
  | nil => intro a h _; simp at h
  | cons x xs ih =>
    intro a ha hfa
    rcases List.mem_cons.mp ha with rfl | ha
    · rw [List.mapM_cons, hfa]
      rfl
    · rw [List.mapM_cons, ih ha hfa]
      cases f x <;> rfl

lemma mapM_isSome {α β : Type} {f : α → Option β} :
    ∀ l : List α, (∀ a ∈ l, ∃ b, f a = some b) → ∃ out, l.mapM f = some out := by
  intro l
  induction l with
  | nil => intro _; exact ⟨[], rfl⟩
  | cons x xs ih =>
    intro h
    obtain ⟨b, hb⟩ := h x (List.mem_cons_self _ _)
    obtain ⟨out, hout⟩ := ih (fun a ha => h a (List.mem_cons_of_mem _ ha))
    exact ⟨b :: out, by rw [List.mapM_cons, hb, hout]; rfl⟩

/-! ### Soundness of the width pre-pass -/

lemma updWidths_spec : ∀ (fs : List Str) (ws ws2 : List Nat),
    updWidths ws fs = some ws2 →
    ws2.length = ws.length ∧
    (∀ i w, ws.get? i = some w → ∃ w2, ws2.get? i = some w2 ∧ w ≤ w2) ∧
    (∀ i f, fs.get? i = some f → ∃ w2, ws2.get? i = some w2 ∧ f.length ≤ w2) := by
  intro fs
  induction fs with
  | nil =>
    intro ws ws2 h
    simp only [updWidths, Option.some.injEq] at h
    subst h
    exact ⟨rfl, fun i w hw => ⟨w, hw, le_rfl⟩, by simp⟩
  | cons f ft ih =>
    intro ws ws2 h
    cases ws with
    | nil => simp [updWidths] at h
    | cons w wt =>
      simp only [updWidths, Option.map_eq_some'] at h
      obtain ⟨ws2t, hrec, rfl⟩ := h
      obtain ⟨hlen, hmono, hbound⟩ := ih wt ws2t hrec
      refine ⟨by simp [hlen], ?_, ?_⟩
      · intro i wi hwi
        cases i with
        | zero =>
          simp only [List.get?_cons_zero, Option.some.injEq] at hwi ⊢
          exact ⟨_, rfl, hwi ▸ le_max_left _ _⟩
        | succ i =>
          simp only [List.get?_cons_succ] at hwi ⊢
          exact hmono i wi hwi
      · intro i fi hfi
        cases i with
        | zero =>
          simp only [List.get?_cons_zero, Option.some.injEq] at hfi ⊢
          exact ⟨_, rfl, hfi ▸ le_max_right _ _⟩
        | succ i =>
          simp only [List.get?_cons_succ] at hfi ⊢
          exact hbound i fi hfi

lemma widthsFold_spec (sep : Str) : ∀ (rs : List Str) (ws ws2 : List Nat),
    widthsFold sep ws rs = some ws2 →
    (∀ i w, ws.get? i = some w → ∃ w2, ws2.get? i = some w2 ∧ w ≤ w2) ∧
    (∀ r ∈ rs, ∀ i f, (goSplit sep (goTrim r)).get? i = some f →
      ∃ w2, ws2.get? i = some w2 ∧ f.length ≤ w2) := by
  intro rs
  induction rs with
  | nil =>
    intro ws ws2 h
    simp only [widthsFold, Option.some.injEq] at h
    subst h
    exact ⟨fun i w hw => ⟨w, hw, le_rfl⟩, by simp⟩
  | cons r rt ih =>
    intro ws ws2 h
    simp only [widthsFold] at h
    split at h
    · simp at h
    · rename_i ws1 hupd
      obtain ⟨hmono1, hbound1⟩ := ih ws1 ws2 h
      obtain ⟨-, hmono0, hbound0⟩ := updWidths_spec _ ws ws1 hupd
      constructor
      · intro i w hw
        obtain ⟨w1, hw1, hle1⟩ := hmono0 i w hw
        obtain ⟨w2, hw2, hle2⟩ := hmono1 i w1 hw1
        exact ⟨w2, hw2, le_trans hle1 hle2⟩
      · intro q hq i f hf
        rcases List.mem_cons.mp hq with rfl | hq
        · obtain ⟨w1, hw1, hle1⟩ := hbound0 i f hf
          obtain ⟨w2, hw2, hle2⟩ := hmono1 i w1 hw1
          exact ⟨w2, hw2, le_trans hle1 hle2⟩
        · exact hbound1 q hq i f hf

/-- Every field length of every trimmed record is bounded by the
corresponding pre-computed width. -/
lemma computeWidths_sound {sep file : Str} {ws : List Nat}
    (h : computeWidths sep file = some ws) :
    ∀ r ∈ fileRecords file, ∀ i f, (goSplit sep (goTrim r)).get? i = some f →
      ∃ w, ws.get? i = some w ∧ f.length ≤ w :=
  (widthsFold_spec sep (fileRecords file) _ ws h).2

lemma mkKeySpecs_mem {ws cols : List Nat} {specs : List KeySpec}
    (h : mkKeySpecs ws cols = some specs) :
    ∀ cw ∈ specs, ws.get? cw.1 = some cw.2 := by
  intro cw hcw
  obtain ⟨c, -, hc⟩ := forall₂_mem_right (mapM_some_forall₂ h) cw hcw
  simp only [Option.map_eq_some'] at hc
  obtain ⟨w, hw, heq⟩ := hc
  subst heq
  exact hw

/-- All keys produced under sound widths and a sufficient offset pad
width have the same length: the sum of the field widths, plus the group
separator, plus the offset pad width. -/
lemma compositeKey_length {sep : Str} {specs : List KeySpec} {ws : List Nat} {seekLen : Nat}
    {record : Str} {off : Nat} {k : Str}
    (hk : compositeKey sep specs seekLen record off = some k)
    (hspecs : ∀ cw ∈ specs, ws.get? cw.1 = some cw.2)
    (hbound : ∀ i f, (goSplit sep record).get? i = some f →
      ∃ w, ws.get? i = some w ∧ f.length ≤ w)
    (hoff : (natRepr off).length ≤ seekLen) :
    k.length = (specs.map Prod.snd).sum + 1 + seekLen := by
  obtain ⟨parts, hparts, rfl⟩ := compositeKey_eq hk
  have hf2 := mapM_some_forall₂ hparts
  have hlenmap : parts.map List.length = specs.map Prod.snd := by
    apply forall₂_map_eq hf2
    intro cw hcw b hcb
    simp only [Option.map_eq_some'] at hcb
    obtain ⟨field, hfield, rfl⟩ := hcb
    obtain ⟨w, hw, hle⟩ := hbound cw.1 field hfield
    rw [hspecs cw hcw, Option.some.injEq] at hw
    exact padLeft_length (hw ▸ hle)
  have hpadlen : (padLeft seekLen (natRepr off)).length = seekLen := padLeft_length hoff
  simp only [List.length_append, List.length_cons, List.length_flatten, hlenmap, hpadlen]
  omega

/-! ### The key-generation loop and the run builder -/

/-- Proof-side restatement of the key generation of the run-building
loop: the keys of the nonblank records in source order, independent of
the batching into runs. -/
def genKeys (sep : Str) (specs : List KeySpec) (seekLen : Nat) :
    List Str → Nat → Option (List Str)
  | [], _ => some []
  | r :: rs, off =>
    if (goTrim r).isEmpty then genKeys sep specs seekLen rs (off + r.length)
    else match compositeKey sep specs seekLen (goTrim r) off with
      | none => none
      | some k => (genKeys sep specs seekLen rs (off + r.length)).map (fun ks => k :: ks)

lemma genKeys_eq_mapM (sep : Str) (specs : List KeySpec) (seekLen : Nat) :
    ∀ (rs : List Str) (off : Nat),
      genKeys sep specs seekLen rs off =
        ((withOffsets off rs).filter (fun p => !(goTrim p.1).isEmpty)).mapM
          (fun p => compositeKey sep specs seekLen (goTrim p.1) p.2) := by
  intro rs
  induction rs with
  | nil => intro off; rfl
  | cons r rt ih =>
    intro off
    simp only [genKeys, withOffsets, List.filter_cons]
    by_cases hb : (goTrim r).isEmpty
    · rw [if_pos hb, if_neg (by simp [hb]), ih]
    · rw [if_neg hb, if_pos (by simp [hb])]
      simp only [List.mapM_cons, Option.pure_def, Option.bind_eq_bind]
      cases hk : compositeKey sep specs seekLen (goTrim r) off with
      | none => simp
      | some k =>
        rw [ih]
        cases hrest : ((withOffsets (off + r.length) rt).filter
            (fun p => !(goTrim p.1).isEmpty)).mapM
            (fun p => compositeKey sep specs seekLen (goTrim p.1) p.2) with
        | none => simp
        | some ks => simp

/-- Complete characterization of the run builder: the runs it flushes
hold, as lines, exactly the pending keys plus the keys of the remaining
records (in some order), and every run is a batch of keys arranged
nondecreasingly for the requested direction. -/
lemma buildRuns_spec (asc : Bool) (sep : Str) (specs : List KeySpec) (seekLen : Nat)
    (kps : Int) : ∀ (rs : List Str) (keys : List Str) (off : Nat) (runs : List (List Str)),
      buildRuns asc sep specs seekLen kps rs keys off = some runs →
      ∃ gk, genKeys sep specs seekLen rs off = some gk ∧
        List.Perm runs.flatten ((keys ++ gk).map lineOf) ∧
        ∀ run ∈ runs, ∃ ks, run = ks.map lineOf ∧ List.Chain' (RunLe asc) ks := by
  intro rs
  induction rs with
  | nil =>
    intro keys off runs h
    simp only [buildRuns, Option.some.injEq] at h
    subst h
    refine ⟨[], rfl, ?_, ?_⟩
    · by_cases hk : keys.isEmpty
      · rw [if_pos hk]
        have : keys = [] := by simpa [List.isEmpty_iff] using hk
        subst this
        simp
      · rw [if_neg hk]
        simp only [List.flatten_cons, List.flatten_nil, List.append_nil, List.append_nil]
        unfold sortBatch
        exact (sortKeys_perm (leB asc) keys).map lineOf
    · intro run hrun
      split at hrun
      · simp at hrun
      · simp only [List.mem_singleton] at hrun
        subst hrun
        exact ⟨sortKeys (leB asc) keys, rfl, sortKeys_chain asc keys⟩
  | cons r rt ih =>
    intro keys off runs h
    simp only [buildRuns] at h
    by_cases hb : (goTrim r).isEmpty
    · rw [if_pos hb, Option.some_bind] at h
      simp only [genKeys, if_pos hb]
      split at h
      · -- flush
        rename_i hcond
        simp only [Option.map_eq_some'] at h
        obtain ⟨rest, hrest, rfl⟩ := h
        obtain ⟨gk, hgk, hperm, hchain⟩ := ih [] (off + r.length) rest hrest
        refine ⟨gk, hgk, ?_, ?_⟩
        · simp only [List.flatten_cons]
          have h1 : List.Perm rest.flatten (([] ++ gk).map lineOf) := hperm
          simp only [List.nil_append] at h1
          have h2 : List.Perm (sortBatch asc keys) (keys.map lineOf) :=
            (sortKeys_perm (leB asc) keys).map lineOf
          have := h2.append h1
          rw [← List.map_append] at this
          exact this
        · intro run hrun
          rcases List.mem_cons.mp hrun with rfl | hrun
          · exact ⟨sortKeys (leB asc) keys, rfl, sortKeys_chain asc keys⟩
          · exact hchain run hrun
      · exact ih keys (off + r.length) runs h
    · rw [if_neg hb] at h
      simp only [genKeys, if_neg hb]
      cases hk : compositeKey sep specs seekLen (goTrim r) off with
      | none => rw [hk] at h; simp at h
      | some k =>
        rw [hk] at h
        simp only [Option.map_some', Option.some_bind] at h
        split at h
        · -- flush
          rename_i hcond
          simp only [Option.map_eq_some'] at h
          obtain ⟨rest, hrest, rfl⟩ := h
          obtain ⟨gk, hgk, hperm, hchain⟩ := ih [] (off + r.length) rest hrest
          refine ⟨k :: gk, by simp [hgk], ?_, ?_⟩
          · simp only [List.flatten_cons]
            have h1 : List.Perm rest.flatten (([] ++ gk).map lineOf) := hperm
            simp only [List.nil_append] at h1
            have h2 : List.Perm (sortBatch asc (keys ++ [k])) ((keys ++ [k]).map lineOf) :=
              (sortKeys_perm (leB asc) (keys ++ [k])).map lineOf
            have h3 := h2.append h1
            rw [← List.map_append] at h3
            have h4 : keys ++ [k] ++ gk = keys ++ k :: gk := by simp
            rw [h4] at h3
            exact h3
          · intro run hrun
            rcases List.mem_cons.mp hrun with rfl | hrun
            · exact ⟨sortKeys (leB asc) (keys ++ [k]), rfl, sortKeys_chain asc (keys ++ [k])⟩
            · exact hchain run hrun
        · obtain ⟨gk, hgk, hperm, hchain⟩ := ih (keys ++ [k]) (off + r.length) runs h
          refine ⟨k :: gk, by simp [hgk], ?_, hchain⟩
          have h4 : keys ++ [k] ++ gk = keys ++ k :: gk := by simp
          rw [← h4]
          exact hperm

/-! ### Assembly: keys of one Sort call -/

lemma withOffsets_fst_mem : ∀ (rs : List Str) (b : Nat) (r : Str) (o : Nat),
    (r, o) ∈ withOffsets b rs → r ∈ rs := by
  intro rs
  induction rs with
  | nil => intro b r o h; simp [withOffsets] at h
  | cons q qt ih =>
    intro b r o h
    simp only [withOffsets, List.mem_cons] at h
    rcases h with h | h
    · exact List.mem_cons.mpr (Or.inl (congrArg Prod.fst h))
    · exact List.mem_cons.mpr (Or.inr (ih _ r o h))

lemma withOffsets_filter_fst (P : Str → Bool) : ∀ (rs : List Str) (b : Nat),
    (((withOffsets b rs).filter (fun p => P p.1)).map Prod.fst) = rs.filter P := by
  intro rs
  induction rs with
  | nil => intro b; rfl
  | cons r rt ih =>
    intro b
    simp only [withOffsets, List.filter_cons]
    by_cases hp : P r
    · rw [if_pos (by simpa using hp), if_pos hp]
      simp only [List.map_cons, ih]
    · rw [if_neg (by simpa using hp), if_neg hp]
      exact ih _

/-- The last character of a composite key is a decimal digit (the least
significant digit of the offset). -/
lemma compositeKey_getLast_digit {sep : Str} {specs : List KeySpec} {seekLen : Nat}
    {record : Str} {off : Nat} {k : Str}
    (hk : compositeKey sep specs seekLen record off = some k) :
    ∃ c, k.getLast? = some c ∧ isDigitB c = true := by
  obtain ⟨parts, -, rfl⟩ := compositeKey_eq hk
  have hpad_ne : padLeft seekLen (natRepr off) ≠ [] := by
    unfold padLeft
    intro h
    rcases List.append_eq_nil.mp h with ⟨-, h2⟩
    exact natRepr_ne_nil off h2
  rw [show (parts.flatten ++ gsChar :: padLeft seekLen (natRepr off)) =
    (parts.flatten ++ [gsChar]) ++ padLeft seekLen (natRepr off) by simp]
  rw [List.getLast?_append_of_ne_nil _ hpad_ne]
  unfold padLeft
  rw [List.getLast?_append_of_ne_nil _ (natRepr_ne_nil off)]
  cases hg : (natRepr off).getLast? with
  | none => exact absurd (List.getLast?_eq_none_iff.mp hg) (natRepr_ne_nil off)
  | some c => exact ⟨c, rfl, natRepr_all_digits off c (List.mem_of_mem_getLast? hg)⟩

lemma winFirst_lineOf {asc : Bool} {a b : Str} (h : a.length = b.length) :
    winFirst asc (lineOf a) (lineOf b) = winFirst asc a b := by
  have key : ∀ x y : Str, x.length = y.length → strLt (lineOf x) (lineOf y) = strLt x y := by
    intro x y hxy
    unfold lineOf
    by_cases hlt : strLt (x ++ ['\n']) (y ++ ['\n']) = true
    · rw [hlt]
      rcases (strLt_append_of_length_eq x y ['\n'] ['\n'] hxy).mp hlt with h2 | ⟨rfl, h2⟩
      · exact h2.symm
      · simp [strLt_irrefl] at h2
    · have h2 : strLt (x ++ ['\n']) (y ++ ['\n']) = false := by
        simpa using hlt
      rw [h2]
      by_cases h3 : strLt x y = true
      · exact absurd ((strLt_append_of_length_eq x y ['\n'] ['\n'] hxy).mpr (Or.inl h3))
          (by simp [h2])
      · simpa using fun hc => h3 hc
  cases asc with
  | true => simpa [winFirst] using key a b h
  | false => simpa [winFirst] using key b a h.symm

lemma runLe_lineOf_iff {asc : Bool} {a b : Str} (h : a.length = b.length) :
    RunLe asc (lineOf a) (lineOf b) ↔ RunLe asc a b := by
  unfold RunLe leB
  rw [winFirst_lineOf h.symm]

lemma chain'_map_lineOf {asc : Bool} {L : Nat} :
    ∀ ks : List Str, (∀ k ∈ ks, k.length = L) → List.Chain' (RunLe asc) ks →
      List.Chain' (RunLe asc) (ks.map lineOf) := by
  intro ks
  induction ks with
  | nil => intro _ _; simp
  | cons a kt ih =>
    intro hlen h
    cases kt with
    | nil => simp
    | cons b kt2 =>
      simp only [List.map_cons]
      apply List.chain'_cons.mpr
      obtain ⟨hab, h2⟩ := List.chain'_cons.mp h
      constructor
      · exact (runLe_lineOf_iff (by rw [hlen a (by simp), hlen b (by simp)])).mpr hab
      · have := ih (fun k hk => hlen k (List.mem_cons_of_mem _ hk)) h2
        simpa using this

/-- Transfer of the chain of a list of key lines to the chain of the
scanned keys. -/
lemma chain'_scan {asc : Bool} {L : Nat} :
    ∀ lines : List Str,
      (∀ l ∈ lines, ∃ k, l = lineOf k ∧ k.length = L ∧ scanLine l = k) →
      List.Chain' (RunLe asc) lines → List.Chain' (RunLe asc) (lines.map scanLine) := by
  intro lines
  induction lines with
  | nil => intro _ _; simp
  | cons l1 lt ih =>
    intro hshape h
    cases lt with
    | nil => simp
    | cons l2 lt2 =>
      simp only [List.map_cons]
      apply List.chain'_cons.mpr
      obtain ⟨h12, h2⟩ := List.chain'_cons.mp h
      obtain ⟨k1, rfl, hL1, hs1⟩ := hshape l1 (by simp)
      obtain ⟨k2, rfl, hL2, hs2⟩ := hshape l2 (by simp)
      constructor
      · rw [hs1, hs2]
        exact (runLe_lineOf_iff (by rw [hL1, hL2])).mp h12
      · have := ih (fun l hl => hshape l (List.mem_cons_of_mem _ hl)) h2
        simpa using this

lemma lineOf_injective {a b : Str} (h : lineOf a = lineOf b) : a = b :=
  List.append_cancel_right h

/-- Where every key of a successful generation pass comes from. -/
lemma genKeys_mem_spec {sep : Str} {specs : List KeySpec} {file : Str} {gk : List Str}
    (h : genKeys sep specs (natRepr file.length).length (fileRecords file) 0 = some gk) :
    ∀ k ∈ gk, ∃ r o, (r, o) ∈ withOffsets 0 (fileRecords file) ∧
      (goTrim r).isEmpty = false ∧
      compositeKey sep specs (natRepr file.length).length (goTrim r) o = some k ∧
      o ≤ file.length := by
  rw [genKeys_eq_mapM] at h
  intro k hk
  obtain ⟨p, hp, hcomp⟩ := forall₂_mem_right (mapM_some_forall₂ h) k hk
  obtain ⟨r, o⟩ := p
  obtain ⟨hpw, hpb⟩ := List.mem_filter.mp hp
  refine ⟨r, o, hpw, by simpa using hpb, hcomp, ?_⟩
  have := withOffsets_bound (fileRecords file) 0 r o hpw
  rw [fileRecords_flatten] at this
  omega

/-- Under sound widths every generated key has the same fixed length. -/
lemma genKeys_all_length {sep : Str} {cols : List Nat} {specs : List KeySpec}
    {ws : List Nat} {file : Str} {gk : List Str}
    (hws : computeWidths sep file = some ws)
    (hspecs : mkKeySpecs ws cols = some specs)
    (h : genKeys sep specs (natRepr file.length).length (fileRecords file) 0 = some gk) :
    ∀ k ∈ gk, k.length = (specs.map Prod.snd).sum + 1 + (natRepr file.length).length := by
  intro k hk
  obtain ⟨r, o, hmem, hnb, hcomp, hole⟩ := genKeys_mem_spec h k hk
  exact compositeKey_length hcomp (mkKeySpecs_mem hspecs)
    (computeWidths_sound hws r (withOffsets_fst_mem _ _ _ _ hmem))
    (natRepr_length_mono hole)

/-- Master specification of one Sort call up to the single surviving key
file: its lines are a permutation of the key lines of all nonblank
records and they are arranged nondecreasingly for the requested
direction. -/
lemma finalKeyLines_spec {asc : Bool} {cols : List Nat} {sep : Str} {kps : Int}
    {file : Str} {lines : List Str}
    (h : finalKeyLines asc cols sep kps file = some lines) :
    ∃ ws specs gk,
      computeWidths sep file = some ws ∧
      mkKeySpecs ws cols = some specs ∧
      genKeys sep specs (natRepr file.length).length (fileRecords file) 0 = some gk ∧
      List.Perm lines (gk.map lineOf) ∧
      List.Chain' (RunLe asc) lines := by
  unfold finalKeyLines initialRuns at h
  cases hws : computeWidths sep file with
  | none => rw [hws] at h; simp at h
  | some ws =>
  rw [hws] at h
  simp only [Option.bind_eq_bind, Option.some_bind] at h
  cases hspecs : mkKeySpecs ws cols with
  | none => rw [hspecs] at h; simp at h
  | some specs =>
  rw [hspecs] at h
  simp only [Option.some_bind] at h
  cases hruns : buildRuns asc sep specs (natRepr file.length).length kps
      (fileRecords file) [] 0 with
  | none => rw [hruns] at h; simp at h
  | some runs =>
  rw [hruns] at h
  simp only [Option.some_bind] at h
  obtain ⟨gk, hgk, hperm, hchain⟩ :=
    buildRuns_spec asc sep specs (natRepr file.length).length kps
      (fileRecords file) [] 0 runs hruns
  simp only [List.nil_append] at hperm
  have hL := genKeys_all_length hws hspecs hgk
  cases hmp : mergePasses asc runs with
  | nil => rw [hmp] at h; simp at h
  | cons r rt =>
  cases rt with
  | cons r2 rt2 => rw [hmp] at h; simp at h
  | nil =>
  rw [hmp] at h
  simp only [Option.some.injEq] at h
  rw [h] at hmp
  have hlinesperm : List.Perm lines (gk.map lineOf) := by
    have h1 := mergePassesF_flatten_perm asc runs.length runs
    rw [show mergePassesF asc runs.length runs = mergePasses asc runs from rfl, hmp] at h1
    simp only [List.flatten_cons, List.flatten_nil, List.append_nil] at h1
    exact h1.trans hperm
  refine ⟨ws, specs, gk, rfl, hspecs, hgk, hlinesperm, ?_⟩
  have hchainlines : ∀ run ∈ runs, List.Chain' (RunLe asc) run := by
    intro run hrun
    obtain ⟨ks, rfl, hck⟩ := hchain run hrun
    apply chain'_map_lineOf
      (L := (specs.map Prod.snd).sum + 1 + (natRepr file.length).length) ks ?_ hck
    intro k hk
    have hline : lineOf k ∈ runs.flatten :=
      List.mem_flatten.mpr ⟨ks.map lineOf, hrun, List.mem_map_of_mem lineOf hk⟩
    have hmem2 : lineOf k ∈ gk.map lineOf := hperm.mem_iff.mp hline
    obtain ⟨k2, hk2, heq⟩ := List.mem_map.mp hmem2
    rw [← lineOf_injective heq]
    exact hL k2 hk2
  have := mergePasses_chain asc runs hchainlines
  rw [hmp] at this
  exact this lines (by simp)

/-! ### Assembly: materialization -/

/-- The key line of a key generated for a record resolves back to that
record, provided the file never contains the group separator byte (the
documented assumption about the data). -/
lemma recoverChunk_genKey {sep : Str} {specs : List KeySpec} {seekLen : Nat}
    {file r : Str} {o : Nat} {k : Str}
    (hgs : gsChar ∉ file)
    (hmem : (r, o) ∈ withOffsets 0 (fileRecords file))
    (hcomp : compositeKey sep specs seekLen (goTrim r) o = some k) :
    recoverChunk file (lineOf k) = some r := by
  obtain ⟨parts, hparts, rfl⟩ := compositeKey_eq hcomp
  have hrmem : r ∈ fileRecords file := withOffsets_fst_mem _ _ _ _ hmem
  have hP : gsChar ∉ parts.flatten := by
    intro hin
    obtain ⟨part, hpart, hcpart⟩ := List.mem_flatten.mp hin
    obtain ⟨cw, -, hcw⟩ := forall₂_mem_right (mapM_some_forall₂ hparts) part hpart
    simp only [Option.map_eq_some'] at hcw
    obtain ⟨field, hfield, rfl⟩ := hcw
    rcases mem_padLeft hcpart with hsp | hfi
    · exact absurd hsp (by decide)
    · have h1 : gsChar ∈ goTrim r :=
        mem_of_mem_goSplit (List.get?_mem hfield) hfi
      have h2 : gsChar ∈ r := mem_of_mem_goTrim h1
      have h3 : gsChar ∈ file := by
        rw [← fileRecords_flatten file]
        exact List.mem_flatten.mpr ⟨r, hrmem, h2⟩
      exact hgs h3
  rw [recoverChunk_lineOf hP, recordAt_eq file.length file le_rfl r o hmem]

/-- Master specification of a successful Sort call on a file free of the
group separator byte: the destination contents are the concatenation of
chunks that are exactly the nonblank records of the source, reordered by
final key order. -/
lemma sortFile_spec {asc : Bool} {cols : List Nat} {sep : Str} {kps : Int}
    {file out : Str}
    (hgs : gsChar ∉ file)
    (h : sortFile asc cols sep kps file = some out) :
    ∃ lines chunks,
      finalKeyLines asc cols sep kps file = some lines ∧
      materialize file lines = some chunks ∧
      out = chunks.flatten ∧
      List.Perm chunks ((fileRecords file).filter (fun r => !(goTrim r).isEmpty)) := by
  unfold sortFile at h
  cases hfin : finalKeyLines asc cols sep kps file with
  | none => rw [hfin] at h; simp at h
  | some lines =>
  rw [hfin] at h
  simp only [Option.some_bind] at h
  cases hmat : materialize file lines with
  | none => rw [hmat] at h; simp at h
  | some chunks =>
  rw [hmat] at h
  simp only [Option.map_some', Option.some.injEq] at h
  obtain ⟨ws, specs, gk, hws, hspecs, hgk, hlperm, -⟩ := finalKeyLines_spec hfin
  have hrecover : ∀ l ∈ lines, recoverChunk file l =
      some ((recoverChunk file l).getD []) := by
    intro l hl
    obtain ⟨k, hk, rfl⟩ := List.mem_map.mp (hlperm.mem_iff.mp hl)
    obtain ⟨r, o, hmem, -, hcomp, -⟩ := genKeys_mem_spec hgk k hk
    rw [recoverChunk_genKey hgs hmem hcomp]
    rfl
  have hmat2 : materialize file lines =
      some (lines.map (fun l => (recoverChunk file l).getD [])) :=
    mapM_eq_map lines hrecover
  rw [hmat] at hmat2
  simp only [Option.some.injEq] at hmat2
  refine ⟨lines, chunks, rfl, hmat, h.symm, ?_⟩
  rw [hmat2]
  have hstep := (hlperm.map (fun l => (recoverChunk file l).getD []))
  rw [List.map_map] at hstep
  refine hstep.trans (List.Perm.of_eq ?_)
  have hmapeq : gk.map ((fun l => (recoverChunk file l).getD []) ∘ lineOf) =
      ((withOffsets 0 (fileRecords file)).filter
        (fun p => !(goTrim p.1).isEmpty)).map Prod.fst := by
    rw [genKeys_eq_mapM] at hgk
    apply forall₂_map_eq (mapM_some_forall₂ hgk)
    intro p hp k hcomp
    obtain ⟨hpw, -⟩ := List.mem_filter.mp hp
    obtain ⟨r, o⟩ := p
    simp only [Function.comp_apply]
    rw [recoverChunk_genKey hgs hpw hcomp]
    rfl
  rw [hmapeq]
  exact withOffsets_filter_fst (fun r => !(goTrim r).isEmpty) (fileRecords file) 0

/-- On any successful Sort call the scanned keys of the final key file
are arranged nondecreasingly for the requested direction. -/
lemma finalKeyLines_scan_chain {asc : Bool} {cols : List Nat} {sep : Str} {kps : Int}
    {file : Str} {lines : List Str}
    (h : finalKeyLines asc cols sep kps file = some lines) :
    List.Chain' (RunLe asc) (lines.map scanLine) := by
  obtain ⟨ws, specs, gk, hws, hspecs, hgk, hlperm, hchain⟩ := finalKeyLines_spec h
  apply chain'_scan
    (L := (specs.map Prod.snd).sum + 1 + (natRepr file.length).length) lines ?_ hchain
  intro l hl
  obtain ⟨k, hk, rfl⟩ := List.mem_map.mp (hlperm.mem_iff.mp hl)
  refine ⟨k, rfl, genKeys_all_length hws hspecs hgk k hk, ?_⟩
  obtain ⟨r, o, hmem, -, hcomp, -⟩ := genKeys_mem_spec hgk k hk
  obtain ⟨c, hc, hcd⟩ := compositeKey_getLast_digit hcomp
  apply scanLine_lineOf
  rw [hc]
  intro hcr
  simp only [Option.some.injEq] at hcr
  rw [hcr] at hcd
  exact absurd hcd (by decide)

/-! ### The claims -/

/-- C1: the specification claims that ties are emitted in source order
for descending sorts as well.  The code violates this: the offset suffix
inside each composite key is reversed along with the field part by a
descending sort, so records with identical selected fields come out in
reversed source order.  At the failing input below the two records agree
on sort field 1, yet the descending output lists the second source
record first. -/
theorem C1_descending_stability_bug :
    fileRecords ("1\tA\n1\tB\n".data) = ["1\tA\n".data, "1\tB\n".data] ∧
    (goSplit ['\t'] (goTrim ("1\tA\n".data))).get? 0 =
      (goSplit ['\t'] (goTrim ("1\tB\n".data))).get? 0 ∧
    sortFile false [0] ['\t'] 10 ("1\tA\n1\tB\n".data) =
      some ("1\tB\n1\tA\n".data) := by
  decide

/-- C2 counterexample: the output is not the same multiset of records as
the source for every valid input: a record that is blank after trimming
is dropped, so the line counts differ (three source records, two output
records, and the blank record is gone). -/
theorem C2_blank_record_dropped :
    (fileRecords ("a\n \nb\n".data)).length = 3 ∧
    sortFile true [0] ['\t'] 10 ("a\n \nb\n".data) = some ("a\nb\n".data) ∧
    (fileRecords ("a\nb\n".data)).length = 2 ∧
    " \n".data ∈ fileRecords ("a\n \nb\n".data) ∧
    " \n".data ∉ fileRecords ("a\nb\n".data) := by
  decide

/-- C2 amended: for every input free of the group separator byte on
which Sort completes, the destination contents are the concatenation of
chunks that form a permutation of exactly the nonblank (post-trim)
records of the source, byte for byte; blank records are dropped. -/
theorem C2_output_permutes_nonblank_records (asc : Bool) (cols : List Nat) (sep : Str)
    (kps : Int) (file out : Str)
    (hgs : gsChar ∉ file)
    (h : sortFile asc cols sep kps file = some out) :
    ∃ chunks, out = chunks.flatten ∧
      List.Perm chunks ((fileRecords file).filter (fun r => !(goTrim r).isEmpty)) := by
  obtain ⟨lines, chunks, -, -, hout, hperm⟩ := sortFile_spec hgs h
  exact ⟨chunks, hout, hperm⟩

/-- C2 witness: the amended statement applied at a concrete input. -/
theorem C2_output_permutes_nonblank_records_witness :
    gsChar ∉ ("b\na\n".data) ∧
    sortFile true [0] ['\t'] 10 ("b\na\n".data) = some ("a\nb\n".data) ∧
    (∃ chunks, ("a\nb\n".data) = chunks.flatten ∧
      List.Perm chunks
        ((fileRecords ("b\na\n".data)).filter (fun r => !(goTrim r).isEmpty))) :=
  ⟨by decide, by decide,
    C2_output_permutes_nonblank_records true [0] ['\t'] 10 ("b\na\n".data)
      ("a\nb\n".data) (by decide) (by decide)⟩

/-- C3: on every Sort call that completes, the destination is the
concatenation of the materialized chunks in final key order, and every
pair of adjacent chunks satisfies the requested comparison on their
composite-key encodings (the scanned lines of the final key file):
ascending means the earlier key is never above the later one, descending
the reverse. -/
theorem C3_adjacent_output_keys_ordered (asc : Bool) (cols : List Nat) (sep : Str)
    (kps : Int) (file out : Str)
    (h : sortFile asc cols sep kps file = some out) :
    ∃ lines chunks,
      finalKeyLines asc cols sep kps file = some lines ∧
      materialize file lines = some chunks ∧
      out = chunks.flatten ∧
      List.Chain' (RunLe asc) (lines.map scanLine) := by
  unfold sortFile at h
  cases hfin : finalKeyLines asc cols sep kps file with
  | none => rw [hfin] at h; simp at h
  | some lines =>
  rw [hfin] at h
  simp only [Option.some_bind] at h
  cases hmat : materialize file lines with
  | none => rw [hmat] at h; simp at h
  | some chunks =>
  rw [hmat] at h
  simp only [Option.map_some', Option.some.injEq] at h
  exact ⟨lines, chunks, rfl, hmat, h.symm, finalKeyLines_scan_chain hfin⟩

/-- C3 witness: the statement applied at a concrete input. -/
theorem C3_adjacent_output_keys_ordered_witness :
    sortFile true [0] ['\t'] 10 ("b\na\n".data) = some ("a\nb\n".data) ∧
    (∃ lines chunks,
      finalKeyLines true [0] ['\t'] 10 ("b\na\n".data) = some lines ∧
      materialize ("b\na\n".data) lines = some chunks ∧
      ("a\nb\n".data) = chunks.flatten ∧
      List.Chain' (RunLe true) (lines.map scanLine)) :=
  ⟨by decide,
    C3_adjacent_output_keys_ordered true [0] ['\t'] 10 ("b\na\n".data)
      ("a\nb\n".data) (by decide)⟩

/-- C4 counterexample: right-justified padding does not preserve plain
lexicographic order for variable-length values: b is above ab, yet the
padded forms compare the other way, because the added space is below
every data byte. -/
theorem C4_padding_not_monotone :
    ("b".data).length ≤ 2 ∧ ("ab".data).length ≤ 2 ∧
    ¬((leB true (padLeft 2 ("b".data)) (padLeft 2 ("ab".data)) = true) ↔
      (leB true ("b".data) ("ab".data) = true)) := by
  decide

/-- C4 amended: for field values of equal length not exceeding the
width, right-justified padding preserves lexicographic order (both sides
receive the same number of leading spaces). -/
theorem C4_padding_monotone_equal_length (a b : Str) (w : Nat)
    (hlen : a.length = b.length) (_hw : a.length ≤ w) :
    ((leB true (padLeft w a) (padLeft w b) = true) ↔ (leB true a b = true)) := by
  have key : ∀ (R x y : Str), strLt (R ++ x) (R ++ y) = strLt x y := by
    intro R x y
    by_cases h : strLt (R ++ x) (R ++ y) = true
    · rcases (strLt_append_of_length_eq R R x y rfl).mp h with h2 | ⟨-, h2⟩
      · rw [strLt_irrefl] at h2
        exact absurd h2 (by simp)
      · rw [h, h2]
    · have h3 : ¬strLt x y = true := fun hc =>
        h ((strLt_append_of_length_eq R R x y rfl).mpr (Or.inr ⟨rfl, hc⟩))
      rw [Bool.not_eq_true] at h h3
      rw [h, h3]
  have h1 : leB true (padLeft w a) (padLeft w b) =
      !(strLt (padLeft w b) (padLeft w a)) := rfl
  have h2 : leB true a b = !(strLt b a) := rfl
  rw [h1, h2]
  unfold padLeft
  rw [hlen, key]

/-- C4 witness: the amended statement applied at concrete values. -/
theorem C4_padding_monotone_equal_length_witness :
    ("x".data).length = ("y".data).length ∧ ("x".data).length ≤ 3 ∧
    ((leB true (padLeft 3 ("x".data)) (padLeft 3 ("y".data)) = true) ↔
      (leB true ("x".data) ("y".data) = true)) :=
  ⟨by decide, by decide,
    C4_padding_monotone_equal_length ("x".data) ("y".data) 3 (by decide) (by decide)⟩

/-- C5: two composite keys built by the same encoder are never equal
when their record offsets differ, whatever the records hold: the offset
pad after the final group separator cannot collide. -/
theorem C5_keys_distinct_for_distinct_offsets (sep : Str) (specs : List KeySpec)
    (seekLen : Nat) (r1 r2 : Str) (n1 n2 : Nat) (k1 k2 : Str)
    (h1 : compositeKey sep specs seekLen r1 n1 = some k1)
    (h2 : compositeKey sep specs seekLen r2 n2 = some k2)
    (hne : n1 ≠ n2) : k1 ≠ k2 :=
  compositeKey_offset_injective h1 h2 hne

/-- C5 witness: the statement applied at identical records with two
offsets. -/
theorem C5_keys_distinct_for_distinct_offsets_witness :
    compositeKey ['\t'] [(0, 1)] 1 ("a".data) 0 = some ['a', gsChar, '0'] ∧
    compositeKey ['\t'] [(0, 1)] 1 ("a".data) 1 = some ['a', gsChar, '1'] ∧
    (0 : Nat) ≠ 1 ∧
    (['a', gsChar, '0'] : Str) ≠ ['a', gsChar, '1'] :=
  ⟨by decide, by decide, by decide,
    C5_keys_distinct_for_distinct_offsets ['\t'] [(0, 1)] 1 ("a".data) ("a".data)
      0 1 ['a', gsChar, '0'] ['a', gsChar, '1'] (by decide) (by decide) (by decide)⟩

/-- C6 counterexample: the entry checks do not reject every negative
batch size: with keysPerSort equal to minus one all checks pass (the
code only compares against zero), and the engine even completes,
treating the batch as unbounded. -/
theorem C6_negative_batch_accepted :
    (-1 : Int) < 0 ∧
    sortArgsOk ("in".data) ("out".data) ("1".data) (-1) true 5 = true ∧
    sortFile true [0] ['\t'] (-1) ("b\na\n".data) = some ("a\nb\n".data) := by
  decide

/-- C6 amended: the entry checks fail exactly when the source path is
empty, the destination path is empty, the field list is empty, the batch
size is exactly zero, the source is missing, or the source is empty;
negative batch sizes pass. -/
theorem C6_arg_checks_characterized (inFile outFile usingFields : Str) (kps : Int)
    (srcExists : Bool) (srcSize : Nat) :
    sortArgsOk inFile outFile usingFields kps srcExists srcSize = false ↔
      (inFile = [] ∨ outFile = [] ∨ usingFields = [] ∨ kps = 0 ∨
        srcExists = false ∨ srcSize = 0) := by
  cases srcExists
  · simp [sortArgsOk, List.isEmpty_iff]
  · simp [sortArgsOk, List.isEmpty_iff]
    tauto

/-- C7 counterexample: a record with fewer fields than the highest
referenced index does not produce a classified malformed-record error:
the encoder hits the unguarded index and the process crashes with an
unclassified fault. -/
theorem C7_short_record_is_fault_not_error :
    (goSplit ['\t'] ("a".data)).length < 2 ∧
    compositeKeyOutcome ['\t'] [(1, 3)] 2 ("a".data) 0 ≠ KeyOutcome.malformedRecord ∧
    compositeKeyOutcome ['\t'] [(1, 3)] 2 ("a".data) 0 = KeyOutcome.indexFault := by
  decide

/-- C7 amended: whenever some spec column lies beyond the split record
the encoder faults with the unguarded out-of-range access (a process
crash, not a classified error), and whenever every column is in range it
returns a composite key. -/
theorem C7_encoder_outcome (sep record : Str) (specs : List KeySpec)
    (seekLen off : Nat) :
    ((∃ cw ∈ specs, (goSplit sep record).length ≤ cw.1) →
      compositeKeyOutcome sep specs seekLen record off = KeyOutcome.indexFault) ∧
    ((∀ cw ∈ specs, cw.1 < (goSplit sep record).length) →
      ∃ k, compositeKeyOutcome sep specs seekLen record off = KeyOutcome.ok k) := by
  constructor
  · rintro ⟨cw, hcw, hlen⟩
    have hnone : ((goSplit sep record).get? cw.1).map (padLeft cw.2) = none := by
      rw [List.get?_eq_none.mpr hlen]
      rfl
    simp only [compositeKeyOutcome]
    rw [mapM_eq_none_of_mem specs hcw hnone]
  · intro hall
    have hsome : ∀ cw ∈ specs, ∃ b,
        ((goSplit sep record).get? cw.1).map (padLeft cw.2) = some b := by
      intro cw hcw
      refine ⟨padLeft cw.2 ((goSplit sep record).get ⟨cw.1, hall cw hcw⟩), ?_⟩
      rw [List.get?_eq_get (hall cw hcw)]
      rfl
    obtain ⟨parts, hparts⟩ := mapM_isSome specs hsome
    refine ⟨parts.flatten ++ gsChar :: padLeft seekLen (natRepr off), ?_⟩
    simp only [compositeKeyOutcome]
    rw [hparts]

/-- C7 witness: both halves of the amended statement applied at concrete
records. -/
theorem C7_encoder_outcome_witness :
    (∃ cw ∈ ([((1 : Nat), (3 : Nat))] : List KeySpec),
      (goSplit ['\t'] ("a".data)).length ≤ cw.1) ∧
    compositeKeyOutcome ['\t'] [(1, 3)] 2 ("a".data) 0 = KeyOutcome.indexFault ∧
    (∀ cw ∈ ([((1 : Nat), (3 : Nat))] : List KeySpec),
      cw.1 < (goSplit ['\t'] ("a\tb".data)).length) ∧
    (∃ k, compositeKeyOutcome ['\t'] [(1, 3)] 2 ("a\tb".data) 0 = KeyOutcome.ok k) :=
  ⟨by decide,
    (C7_encoder_outcome ['\t'] ("a".data) [(1, 3)] 2 0).1 (by decide),
    by decide,
    (C7_encoder_outcome ['\t'] ("a\tb".data) [(1, 3)] 2 0).2 (by decide)⟩

/-- C8: merging two key streams that are each arranged for the requested
direction yields a stream arranged for that direction holding exactly
the lines of both inputs; exhaustion of one stream drains the other
verbatim (the base cases of mergeLines). -/
theorem C8_pairwise_merge_correct (asc : Bool) (xs ys : List Str)
    (hxs : List.Chain' (RunLe asc) xs) (hys : List.Chain' (RunLe asc) ys) :
    List.Chain' (RunLe asc) (mergeLines asc xs ys) ∧
    List.Perm (mergeLines asc xs ys) (xs ++ ys) ∧
    mergeLines asc [] ys = ys ∧ mergeLines asc xs [] = xs := by
  refine ⟨mergeLines_chain asc hxs hys, mergeLines_perm asc xs ys, ?_, ?_⟩
  · cases ys <;> rfl
  · cases xs <;> rfl

/-- C8 witness: the statement applied to two concrete sorted streams. -/
theorem C8_pairwise_merge_correct_witness :
    List.Chain' (RunLe true) ["a\n".data, "c\n".data] ∧
    List.Chain' (RunLe true) ["b\n".data] ∧
    (List.Chain' (RunLe true) (mergeLines true ["a\n".data, "c\n".data] ["b\n".data]) ∧
      List.Perm (mergeLines true ["a\n".data, "c\n".data] ["b\n".data])
        (["a\n".data, "c\n".data] ++ ["b\n".data]) ∧
      mergeLines true [] ["b\n".data] = ["b\n".data] ∧
      mergeLines true ["a\n".data, "c\n".data] [] = ["a\n".data, "c\n".data]) :=
  have h1 : List.Chain' (RunLe true) ["a\n".data, "c\n".data] :=
    List.chain'_cons.mpr ⟨by decide, List.chain'_singleton _⟩
  have h2 : List.Chain' (RunLe true) ["b\n".data] := List.chain'_singleton _
  ⟨h1, h2, C8_pairwise_merge_correct true ["a\n".data, "c\n".data] ["b\n".data] h1 h2⟩

/-- C9: there is a valid input (it passes every entry check) whose
second record has more fields than the first: the widths slice is sized
from the first record only, so the width pre-pass hits an unguarded
index and faults instead of completing. -/
theorem C9_width_prepass_faults :
    sortArgsOk ("in".data) ("out".data) ("1".data) 10 true
      ("a\nb\tc\n".data).length = true ∧
    fileRecords ("a\nb\tc\n".data) = ["a\n".data, "b\tc\n".data] ∧
    (goSplit ['\t'] ("a\n".data)).length = 1 ∧
    (goSplit ['\t'] (goTrim ("b\tc\n".data))).length = 2 ∧
    computeWidths ['\t'] ("a\nb\tc\n".data) = none := by
  decide

/-- C10: the materializer writes each record exactly as read with no
added terminator: on any completed Sort call over a separator-free file
in which every record ends with a newline, every materialized chunk ends
with a newline; and at the concrete input below, whose final source
record lacks the terminator but sorts first, that record is concatenated
with its successor in the output. -/
theorem C10_records_written_verbatim :
    (∀ (asc : Bool) (cols : List Nat) (sep : Str) (kps : Int) (file out : Str),
      gsChar ∉ file →
      (∀ r ∈ fileRecords file, r.getLast? = some '\n') →
      sortFile asc cols sep kps file = some out →
      ∃ chunks, out = chunks.flatten ∧
        (∀ ch ∈ chunks, ch.getLast? = some '\n') ∧
        List.Perm chunks ((fileRecords file).filter (fun r => !(goTrim r).isEmpty))) ∧
    sortFile true [0] ['\t'] 10 ("b\na".data) = some ("ab\n".data) := by
  constructor
  · intro asc cols sep kps file out hgs hterm h
    obtain ⟨lines, chunks, -, -, hout, hperm⟩ := sortFile_spec hgs h
    refine ⟨chunks, hout, ?_, hperm⟩
    intro ch hch
    have hmem := hperm.mem_iff.mp hch
    exact hterm ch (List.mem_of_mem_filter hmem)
  · decide

/-- C10 witness: the universal half applied at a concrete
newline-terminated input. -/
theorem C10_records_written_verbatim_witness :
    gsChar ∉ ("b\na\n".data) ∧
    (∀ r ∈ fileRecords ("b\na\n".data), r.getLast? = some '\n') ∧
    sortFile true [0] ['\t'] 10 ("b\na\n".data) = some ("a\nb\n".data) ∧
    (∃ chunks, ("a\nb\n".data) = chunks.flatten ∧
      (∀ ch ∈ chunks, ch.getLast? = some '\n') ∧
      List.Perm chunks
        ((fileRecords ("b\na\n".data)).filter (fun r => !(goTrim r).isEmpty))) :=
  ⟨by decide, by decide, by decide,
    C10_records_written_verbatim.1 true [0] ['\t'] 10 ("b\na\n".data) ("a\nb\n".data)
      (by decide) (by decide) (by decide)⟩

end MergesortGo
